import Mathlib

/-!
Shallow embedding of the CodeGroup extension's group storage and
synchronization engine (src/models.ts, src/storageService.ts,
src/extension.ts, src/fileGroupsProvider.ts), together with proofs that
settle the specification claims.

Modelling conventions:
* TypeScript strings are Lean `String` (a `structure` over `List Char` in
  this toolchain), so JavaScript string operations are written as explicit
  operations on the underlying character list.
* The two persisted forests (`workspaceState` local groups and
  `globalState` global groups) together with the `hideGlobalGroups`
  setting form the `StorageState`.  The durable JSON artifacts mirror the
  caches and the caches are the system of record for every read
  (`getGroups`), so the artifacts are not modelled separately.
* Optional TypeScript fields that the loader default-fills (`collapsed`,
  `pinned`, `isGlobal`) are modelled as total `Bool` fields whose absent
  value coincides with the default; genuinely optional data stays
  `Option`.
* A `Partial<FileGroup>` update object is a record of `Option` fields;
  a present field (even one explicitly set to `undefined`, e.g.
  `parentId: undefined`) overrides, mirroring JS object spread.
* The unbounded recursions of the source (`getGroupAndChildIds` and the
  `isDescendant` while loop) are modelled with explicit fuel; exhausted
  fuel (`none`) models the stack overflow / divergence the JS exhibits on
  cyclic inputs.  Fuel-sufficiency theorems below show the chosen fuel is
  never exhausted on acyclic forests, where the JS terminates.
-/

namespace CodeGroup

/-- `GroupFile` from src/models.ts: one file or folder entry of a group. -/
structure GroupFile where
  path : String
  name : String
  isDirectory : Option Bool
  deriving DecidableEq

/-- `FileGroup` from src/models.ts (with the metadata fields the storage
service reads and default-fills: `shortDescription`, `details`,
`createdBy`, `collapsed`, `pinned`, `badgeText`, `sortOrder`,
`isGlobal`). -/
structure FileGroup where
  id : String
  name : String
  icon : String
  color : String
  files : List GroupFile
  order : Nat
  parentId : Option String
  shortDescription : Option String
  details : Option String
  createdBy : Option String
  collapsed : Bool
  pinned : Bool
  badgeText : Option String
  sortOrder : Option String
  isGlobal : Bool
  deriving DecidableEq

/-- The persisted state of the dual store: the workspace-local forest, the
cross-workspace global forest, and the per-project `hideGlobalGroups`
setting stored in the local config block. -/
structure StorageState where
  localGroups : List FileGroup
  globalGroups : List FileGroup
  hideGlobalGroups : Bool
  deriving DecidableEq

/-- A `Partial<FileGroup>` update object, as consumed by
`StorageService.updateGroup` via object spread.  `none` means the key is
absent; `some v` means the key is present with value `v` (for fields of
`Option` type, `some none` models a key explicitly set to
`undefined`). -/
structure GroupUpdate where
  name : Option String := none
  icon : Option String := none
  color : Option String := none
  order : Option Nat := none
  parentId : Option (Option String) := none
  shortDescription : Option (Option String) := none
  details : Option (Option String) := none
  createdBy : Option (Option String) := none
  collapsed : Option Bool := none
  pinned : Option Bool := none
  badgeText : Option (Option String) := none
  sortOrder : Option (Option String) := none
  isGlobal : Option Bool := none
  deriving DecidableEq

/-- JS object spread `{...g, ...updates}`: every key present in `updates`
overrides the corresponding field of `g`. -/
def applyUpdates (g : FileGroup) (u : GroupUpdate) : FileGroup :=
  { g with
    name := u.name.getD g.name
    icon := u.icon.getD g.icon
    color := u.color.getD g.color
    order := u.order.getD g.order
    parentId := u.parentId.getD g.parentId
    shortDescription := u.shortDescription.getD g.shortDescription
    details := u.details.getD g.details
    createdBy := u.createdBy.getD g.createdBy
    collapsed := u.collapsed.getD g.collapsed
    pinned := u.pinned.getD g.pinned
    badgeText := u.badgeText.getD g.badgeText
    sortOrder := u.sortOrder.getD g.sortOrder
    isGlobal := u.isGlobal.getD g.isGlobal }

/-! ### Path codec (storageService.ts `toRelativePath` / `toAbsolutePath`) -/

/-- `path.replace(/\\/g, '/')`: separator normalization. -/
def normalizeSeparators (s : String) : String :=
  ⟨s.data.map (fun c => if c = '\\' then '/' else c)⟩

/-- `StorageService.toRelativePath`: strip the workspace root when the
separator-normalized absolute path starts with the separator-normalized
root (a plain string-prefix test, `String.prototype.startsWith`),
dropping one extra character for the separator; otherwise return the
original absolute path unchanged. -/
def toRelativePath (absolutePath workspaceRoot : String) : String :=
  let normalizedAbsolute := normalizeSeparators absolutePath
  let normalizedRoot := normalizeSeparators workspaceRoot
  if normalizedRoot.data.isPrefixOf normalizedAbsolute.data then
    ⟨normalizedAbsolute.data.drop (normalizedRoot.data.length + 1)⟩
  else absolutePath

/-- `StorageService.toAbsolutePath`: a path containing a `:` (drive
marker heuristic) or starting with `/` is returned unchanged; otherwise
it is joined to the root with `/` and every `/` is replaced by the
platform separator `sep` (`require('path').sep`). -/
def toAbsolutePath (relativePath workspaceRoot : String) (sep : Char) : String :=
  if relativePath.data.contains ':' || relativePath.data.head? = some '/' then
    relativePath
  else
    ⟨(workspaceRoot.data ++ '/' :: relativePath.data).map
      (fun c => if c = '/' then sep else c)⟩

/-! ### Dual store reads and writes (storageService.ts) -/

/-- The normalization `getGroups` applies to a stored local group: the
`?? default` back-filling is the identity on the total fields of this
model, and the group is marked `isGlobal: false`. -/
def normalizeLocal (g : FileGroup) : FileGroup :=
  { g with isGlobal := false }

/-- The normalization `getGlobalGroups` applies to a stored global group:
marked `isGlobal: true`. -/
def normalizeGlobal (g : FileGroup) : FileGroup :=
  { g with isGlobal := true }

/-- `StorageService.getGlobalGroups`. -/
def getGlobalGroups (st : StorageState) : List FileGroup :=
  st.globalGroups.map normalizeGlobal

/-- `StorageService.getGroups`: global groups first, then local groups,
unless the project hides global groups, in which case only local groups
are returned. -/
def getGroups (st : StorageState) : List FileGroup :=
  if st.hideGlobalGroups then st.localGroups.map normalizeLocal
  else getGlobalGroups st ++ st.localGroups.map normalizeLocal

/-- `StorageService.saveGroups`: partition the given forest by
`isGlobal`; always persist the local partition; persist the global
partition (marking every member `isGlobal: true`, as `saveGlobalGroups`
does) only when it is non-empty or the global store was previously
non-empty. -/
def saveGroups (st : StorageState) (groups : List FileGroup) : StorageState :=
  let localGroups := groups.filter (fun g => !g.isGlobal)
  let globalGroups := groups.filter (fun g => g.isGlobal)
  if globalGroups.length > 0 || (getGlobalGroups st).length > 0 then
    { st with
      localGroups := localGroups
      globalGroups := globalGroups.map normalizeGlobal }
  else
    { st with localGroups := localGroups }

/-- `StorageService.setHideGlobalGroups`. -/
def setHideGlobalGroups (st : StorageState) (hide : Bool) : StorageState :=
  { st with hideGlobalGroups := hide }

/-- `groups.find(g => g.id === groupId)`. -/
def lookupGroup (groups : List FileGroup) (groupId : String) : Option FileGroup :=
  groups.find? (fun g => g.id == groupId)

/-- `findIndex` followed by an in-place assignment: rewrite the first
element satisfying the predicate, leaving everything else unchanged. -/
def modifyFirst (p : FileGroup → Bool) (f : FileGroup → FileGroup) :
    List FileGroup → List FileGroup
  | [] => []
  | g :: gs => if p g then f g :: gs else g :: modifyFirst p f gs

/-- `StorageService.createGroup`: append and save. -/
def createGroup (st : StorageState) (group : FileGroup) : StorageState :=
  saveGroups st (getGroups st ++ [group])

/-- `StorageService.updateGroup`: merge the update object into the first
group with the given id and save; if no group matches, do nothing (not
even a save). -/
def updateGroup (st : StorageState) (groupId : String) (updates : GroupUpdate) :
    StorageState :=
  let groups := getGroups st
  if groups.any (fun g => g.id == groupId) then
    saveGroups st (modifyFirst (fun g => g.id == groupId) (fun g => applyUpdates g updates) groups)
  else st

/-! ### The descendant walk (storageService.ts `getGroupAndChildIds`)

The source recursion has no visited-set guard, so it is modelled with
explicit fuel that decreases once per recursion level; `none` models the
unbounded recursion (stack overflow) the JS exhibits when the `parentId`
links contain a cycle. -/

/-- `JS Set.add`: insert if not already present (insertion order kept). -/
def addId (i : String) (ids : List String) : List String :=
  if ids.contains i then ids else ids ++ [i]

/-- `groups.filter(g => g.parentId === parentId)`. -/
def childrenOf (groups : List FileGroup) (parentId : String) : List FileGroup :=
  groups.filter (fun g => g.parentId == some parentId)

/-- The inner `findChildren` recursion of
`StorageService.getGroupAndChildIds`: for each child of `parentId`, add
its id to the accumulator and recurse into it, threading the shared
accumulator left to right. -/
def findChildren (groups : List FileGroup) : Nat → String → List String → Option (List String)
  | 0, _, _ => none
  | fuel + 1, parentId, ids =>
    (childrenOf groups parentId).foldl
      (fun acc child => acc.bind (fun l => findChildren groups fuel child.id (addId child.id l)))
      (some ids)

/-- `StorageService.getGroupAndChildIds`: the id itself plus every
transitive child.  Fuel `groups.length + 1` bounds the recursion depth,
which on an acyclic duplicate-free forest never exceeds the number of
groups (proved below), so `none` occurs exactly where the JS diverges. -/
def getGroupAndChildIds (groupId : String) (groups : List FileGroup) :
    Option (List String) :=
  findChildren groups (groups.length + 1) groupId [groupId]

/-- `StorageService.deleteGroup`: remove the group and every transitive
child in one save. -/
def deleteGroup (st : StorageState) (groupId : String) : Option StorageState :=
  let groups := getGroups st
  (getGroupAndChildIds groupId groups).map (fun idsToDelete =>
    saveGroups st (groups.filter (fun g => !idsToDelete.contains g.id)))

/-- `StorageService.updateGroupRecursive`: apply the update object to the
group and every transitive child, then save. -/
def updateGroupRecursive (st : StorageState) (groupId : String)
    (updates : GroupUpdate) : Option StorageState :=
  let groups := getGroups st
  (getGroupAndChildIds groupId groups).map (fun idsToUpdate =>
    saveGroups st (groups.map (fun g =>
      if idsToUpdate.contains g.id then applyUpdates g updates else g)))

/-- `StorageService.getAllFilesInGroup`. -/
def getAllFilesInGroup (st : StorageState) (groupId : String) : Option (List GroupFile) :=
  let groups := getGroups st
  (getGroupAndChildIds groupId groups).map (fun idsToInclude =>
    (groups.filter (fun g => idsToInclude.contains g.id)).foldl
      (fun acc g => acc ++ g.files) [])

/-! ### Member operations (storageService.ts) -/

/-- One step of the `addFilesToGroup` loop: skip the file when a member
with the same path already exists, otherwise push it and count it. -/
def addFilesStep (acc : List GroupFile × Nat) (file : GroupFile) :
    List GroupFile × Nat :=
  if acc.1.any (fun f => f.path == file.path) then acc
  else (acc.1 ++ [file], acc.2 + 1)

/-- `StorageService.addFilesToGroup`: de-duplicate against the (growing)
member list of the first group with the given id, save only when at
least one file was added, and return the number actually added. -/
def addFilesToGroup (st : StorageState) (groupId : String)
    (files : List GroupFile) : StorageState × Nat :=
  let groups := getGroups st
  match lookupGroup groups groupId with
  | none => (st, 0)
  | some g =>
    let res := files.foldl addFilesStep (g.files, 0)
    if res.2 > 0 then
      (saveGroups st (modifyFirst (fun x => x.id == groupId)
        (fun x => { x with files := res.1 }) groups), res.2)
    else (st, 0)

/-- `StorageService.removeFileFromGroup`. -/
def removeFileFromGroup (st : StorageState) (groupId : String)
    (filePath : String) : StorageState :=
  let groups := getGroups st
  match lookupGroup groups groupId with
  | none => st
  | some _ =>
    saveGroups st (modifyFirst (fun x => x.id == groupId)
      (fun x => { x with files := x.files.filter (fun f => !(f.path == filePath)) }) groups)

/-! ### Commands (extension.ts) -/

/-- The `fileGroups.createSubgroup` command (extension.ts): a fresh group
with the parent's id as `parentId`, inheriting the parent's `color`
(`color: item.group.color` is the only inherited field), icon `folder`,
`order` equal to the current combined group count, and `collapsed:
false`.  The source object carries no `isGlobal` key; an absent
`isGlobal` reads as `false` both in the `saveGroups` partition and in the
`getGroups` normalization, so it is modelled as `false`. -/
def createSubgroup (st : StorageState) (parent : FileGroup)
    (newId newName createdBy : String) : StorageState :=
  let groups := getGroups st
  createGroup st
    { id := newId
      name := newName
      icon := "folder"
      color := parent.color
      files := []
      order := groups.length
      parentId := some parent.id
      shortDescription := none
      details := none
      createdBy := some createdBy
      collapsed := false
      pinned := false
      badgeText := none
      sortOrder := none
      isGlobal := false }

/-- `newPath.split(/[/\\]/)`: split a character list at `/` and `\`,
keeping empty segments, as `String.prototype.split` does (the result is
never empty). -/
def splitPathSegments : List Char → List (List Char)
  | [] => [[]]
  | c :: cs =>
    let rest := splitPathSegments cs
    if c = '/' ∨ c = '\\' then [] :: rest
    else
      match rest with
      | h :: t => (c :: h) :: t
      | [] => [[c]]

/-- `newPath.split(/[/\\]/).pop() || 'unknown'`: the last path segment,
with the falsy empty string replaced by `"unknown"`. -/
def lastSegment (p : String) : String :=
  match (splitPathSegments p.data).getLast? with
  | some [] => "unknown"
  | some (c :: cs) => ⟨c :: cs⟩
  | none => "unknown"

/-- `array.findIndex`: index of the first element satisfying the
predicate, if any. -/
def jsFindIndex (p : GroupFile → Bool) : List GroupFile → Option Nat
  | [] => none
  | f :: fs => if p f then some 0 else (jsFindIndex p fs).map (· + 1)

/-- The per-group body of the `onDidRenameFiles` handler (extension.ts):
if the group contains a member at `oldPath`, overwrite that member with
`{ path: newPath, name: newName }` — an object literal with no
`isDirectory` key, so the member's directory flag is dropped. -/
def renameInGroup (oldPath newPath newName : String) (g : FileGroup) : FileGroup :=
  match jsFindIndex (fun f => f.path == oldPath) g.files with
  | some i => { g with files := g.files.set i { path := newPath, name := newName, isDirectory := none } }
  | none => g

/-- The `onDidRenameFiles` handler of `setupFileWatcher` (extension.ts)
for a single renamed file: patch every group containing the old path and
save once if anything changed. -/
def onDidRenameFile (st : StorageState) (oldPath newPath : String) : StorageState :=
  let groups := getGroups st
  let newName := lastSegment newPath
  let changed := groups.any (fun g => g.files.any (fun f => f.path == oldPath))
  let patched := groups.map (renameInGroup oldPath newPath newName)
  if changed then saveGroups st patched else st

/-- The `fileGroups.cleanupMissingFiles` command (extension.ts): filter
every group's members by filesystem existence, count the removals, and
save only when something was removed.  `fsExists` models
`fs.existsSync` with its `try/catch` (a throwing stat reads as
`false`). -/
def cleanupMissingFiles (st : StorageState) (fsExists : String → Bool) :
    StorageState × Nat :=
  let groups := getGroups st
  let cleaned := groups.map (fun g => { g with files := g.files.filter (fun f => fsExists f.path) })
  let removedCount := groups.foldl
    (fun n g => n + (g.files.length - (g.files.filter (fun f => fsExists f.path)).length)) 0
  if removedCount > 0 then (saveGroups st cleaned, removedCount)
  else (st, removedCount)

/-! ### Drag and drop (fileGroupsProvider.ts `FileGroupsDragDropController`) -/

/-- The `while (current && current.parentId)` loop of
`FileGroupsDragDropController.isDescendant`, with explicit fuel: walk the
`parentId` chain upward from `currentId` and report whether some link on
the chain equals `ancestorId`. -/
def isDescendantFuel (groups : List FileGroup) : Nat → String → String → Bool
  | 0, _, _ => false
  | fuel + 1, currentId, ancestorId =>
    match lookupGroup groups currentId with
    | none => false
    | some g =>
      match g.parentId with
      | none => false
      | some p => p == ancestorId || isDescendantFuel groups fuel p ancestorId

/-- `FileGroupsDragDropController.isDescendant`: is
`potentialDescendantId` a (strict) descendant of `ancestorId`?  Fuel
`groups.length` covers every chain an acyclic duplicate-free forest can
produce (proved below). -/
def isDescendant (groups : List FileGroup) (potentialDescendantId ancestorId : String) : Bool :=
  isDescendantFuel groups groups.length potentialDescendantId ancestorId

/-- Where a tree drag of a group can land: empty space (local root), the
synthetic Global Groups section, or another group node. -/
inductive DropTarget where
  | rootLevel
  | globalSection
  | group (id : String)
  deriving DecidableEq

/-- `handleDrop`/`handleGroupDrop` for a single dragged group.  The
returned `Bool` records whether the user-facing
`Cannot move a group into its own subgroup` warning was shown.  `none`
models the divergence of the unbounded `getGroupAndChildIds` recursion
inside `updateGroupRecursive` (never reached from an acyclic forest).

Source branches (fileGroupsProvider.ts):
* section target: `updateGroupRecursive(id, {isGlobal: true})` then
  `updateGroup(id, {parentId: undefined})`;
* no target (empty space): `updateGroupRecursive(id, {isGlobal: false})`
  when the dragged group is global, then `updateGroup(id, {parentId:
  undefined})` when it had a parent;
* group target: skip silently when dropped on itself; warn and skip when
  the target is a descendant of the dragged group; otherwise align the
  subtree's store with `updateGroupRecursive(id, {isGlobal:
  target.isGlobal})` when the stores differ, then
  `updateGroup(id, {parentId: target.id})`. -/
def applyDrop (st : StorageState) (draggedId : String) (target : DropTarget) :
    Option (StorageState × Bool) :=
  let groups := getGroups st
  match lookupGroup groups draggedId with
  | none => some (st, false)
  | some dragged =>
    match target with
    | DropTarget.globalSection =>
      (updateGroupRecursive st dragged.id { isGlobal := some true }).map (fun st1 =>
        (updateGroup st1 dragged.id { parentId := some none }, false))
    | DropTarget.rootLevel =>
      let st1? := if dragged.isGlobal then
          updateGroupRecursive st dragged.id { isGlobal := some false }
        else some st
      st1?.map (fun st1 =>
        (if dragged.parentId.isSome then
          updateGroup st1 dragged.id { parentId := some none }
        else st1, false))
    | DropTarget.group targetId =>
      match lookupGroup groups targetId with
      | none => some (st, false)
      | some targetGroup =>
        if dragged.id == targetGroup.id then some (st, false)
        else if isDescendant groups targetGroup.id dragged.id then some (st, true)
        else
          let st1? := if targetGroup.isGlobal != dragged.isGlobal then
              updateGroupRecursive st dragged.id { isGlobal := some targetGroup.isGlobal }
            else some st
          st1?.map (fun st1 =>
            (updateGroup st1 dragged.id { parentId := some (some targetGroup.id) }, false))

/-- A sequence of single-group drops, each reading the state the previous
one produced. -/
def applyDrops : List (String × DropTarget) → StorageState → Option StorageState
  | [], st => some st
  | (draggedId, target) :: rest, st =>
    (applyDrop st draggedId target).bind (fun r => applyDrops rest r.1)

/-! ### The parent graph

Semantic layer used to state and prove the tree invariants: one
`parentId` step, its iteration, cycle-freedom, and key uniqueness. -/

/-- One upward step in the parent graph: the `parentId` of the first
group with the given id, if any. -/
def parentStep (groups : List FileGroup) (i : String) : Option String :=
  (lookupGroup groups i).bind (fun g => g.parentId)

/-- `n` upward steps in the parent graph. -/
def iterParent (groups : List FileGroup) : Nat → String → Option String
  | 0, i => some i
  | n + 1, i => (parentStep groups i).bind (iterParent groups n)

/-- Cycle-freedom: no id returns to itself after a positive number of
parent steps. -/
def Acyclic (groups : List FileGroup) : Prop :=
  ∀ i n, 0 < n → iterParent groups n i ≠ some i

/-- Group ids are pairwise distinct. -/
def NodupIds (groups : List FileGroup) : Prop :=
  (groups.map (fun g => g.id)).Nodup

/-- `a` is a strict descendant of `p`: some chain of child edges (each
edge given by a group of the forest whose `parentId` is the chain's
previous node) leads from `p` down to `a`. -/
inductive Desc (groups : List FileGroup) : String → String → Prop
  | child {p : String} {g : FileGroup} :
      g ∈ groups → g.parentId = some p → Desc groups p g.id
  | step {p a : String} {g : FileGroup} :
      g ∈ groups → g.parentId = some p → Desc groups g.id a → Desc groups p a

/-- The two stores carry consistent membership flags: every stored
global group is marked global, every stored local group local.  Every
state `saveGroups` produces satisfies this. -/
def WellFormed (st : StorageState) : Prop :=
  (∀ g ∈ st.globalGroups, g.isGlobal = true) ∧
    (∀ g ∈ st.localGroups, g.isGlobal = false)

/-! ### Basic lemmas about the embedding -/

theorem normalizeGlobal_id (g : FileGroup) : (normalizeGlobal g).id = g.id := rfl

theorem normalizeGlobal_parentId (g : FileGroup) :
    (normalizeGlobal g).parentId = g.parentId := rfl

theorem normalizeLocal_id (g : FileGroup) : (normalizeLocal g).id = g.id := rfl

theorem normalizeLocal_parentId (g : FileGroup) :
    (normalizeLocal g).parentId = g.parentId := rfl

theorem normalizeGlobal_eq_self {g : FileGroup} (h : g.isGlobal = true) :
    normalizeGlobal g = g := by
  cases g
  simp only [normalizeGlobal] at h ⊢
  simp_all

theorem normalizeLocal_eq_self {g : FileGroup} (h : g.isGlobal = false) :
    normalizeLocal g = g := by
  cases g
  simp only [normalizeLocal] at h ⊢
  simp_all

theorem iterParent_add (groups : List FileGroup) (m n : Nat) (i : String) :
    iterParent groups (m + n) i = (iterParent groups m i).bind (iterParent groups n) := by
  induction m generalizing i with
  | zero => simp [iterParent]
  | succ m ih =>
    have : m + 1 + n = (m + n) + 1 := by omega
    rw [this]
    simp only [iterParent]
    cases parentStep groups i with
    | none => simp
    | some j => simp [ih j]

/-- A found group is a member with the looked-up id. -/
theorem lookupGroup_mem {groups : List FileGroup} {i : String} {g : FileGroup}
    (h : lookupGroup groups i = some g) : g ∈ groups ∧ g.id = i := by
  refine ⟨List.mem_of_find?_eq_some h, ?_⟩
  have := List.find?_some h
  simpa [beq_iff_eq] using this

/-- A member's id makes the lookup succeed. -/
theorem lookupGroup_isSome {groups : List FileGroup} {g : FileGroup}
    (hg : g ∈ groups) : (lookupGroup groups g.id).isSome := by
  rw [lookupGroup, List.find?_isSome]
  exact ⟨g, hg, by simp⟩

/-- With pairwise distinct ids, two members sharing an id are equal. -/
theorem eq_of_mem_nodupIds {groups : List FileGroup} (hN : NodupIds groups)
    {g h : FileGroup} (hg : g ∈ groups) (hh : h ∈ groups) (hid : g.id = h.id) :
    g = h := by
  induction groups with
  | nil => cases hg
  | cons a l ih =>
    have hN' : NodupIds l := by
      have := hN
      simp only [NodupIds, List.map_cons, List.nodup_cons] at this
      exact this.2
    have hnotin : a.id ∉ l.map (fun g => g.id) := by
      have := hN
      simp only [NodupIds, List.map_cons, List.nodup_cons] at this
      exact this.1
    rcases List.mem_cons.mp hg with hg1 | hg2 <;>
      rcases List.mem_cons.mp hh with hh1 | hh2
    · rw [hg1, hh1]
    · exfalso
      apply hnotin
      rw [← hg1, hid]
      exact List.mem_map.mpr ⟨h, hh2, rfl⟩
    · exfalso
      apply hnotin
      rw [← hh1, ← hid]
      exact List.mem_map.mpr ⟨g, hg2, rfl⟩
    · exact ih hN' hg2 hh2

/-- With pairwise distinct ids, lookup of a member's id finds exactly
that member. -/
theorem lookupGroup_eq_of_nodup {groups : List FileGroup} (hN : NodupIds groups)
    {g : FileGroup} (hg : g ∈ groups) : lookupGroup groups g.id = some g := by
  have hsome := lookupGroup_isSome hg
  rcases Option.isSome_iff_exists.mp hsome with ⟨h, hh⟩
  rcases lookupGroup_mem hh with ⟨hmem, hid⟩
  rw [hh, eq_of_mem_nodupIds hN hmem hg hid]

/-- `parentStep` over a list whose members all belong to a list with
unique ids agrees with the larger list wherever it is defined. -/
theorem parentStep_of_subset {sub groups : List FileGroup}
    (hsub : ∀ g ∈ sub, g ∈ groups) (hN : NodupIds groups) (i : String) :
    parentStep sub i = parentStep groups i ∨ parentStep sub i = none := by
  cases hl : lookupGroup sub i with
  | none => right; simp [parentStep, hl]
  | some g =>
    left
    rcases lookupGroup_mem hl with ⟨hmem, hid⟩
    have : lookupGroup groups i = some g := by
      have := lookupGroup_eq_of_nodup hN (hsub g hmem)
      rwa [hid] at this
    simp [parentStep, hl, this]

/-! ### Structure of `saveGroups` and the read-after-save forest -/

/-- The local store after a save is always the local partition. -/
theorem saveGroups_localGroups (st : StorageState) (mod : List FileGroup) :
    (saveGroups st mod).localGroups = mod.filter (fun g => !g.isGlobal) := by
  simp only [saveGroups]
  split <;> rfl

/-- The global store after a save is always the global partition,
re-marked global: in the branch that skips `saveGlobalGroups` both the
partition and the previous store are empty, so the equation holds there
too. -/
theorem saveGroups_globalGroups (st : StorageState) (mod : List FileGroup) :
    (saveGroups st mod).globalGroups =
      (mod.filter (fun g => g.isGlobal)).map normalizeGlobal := by
  simp only [saveGroups]
  split
  · rfl
  · next hcond =>
    simp only [gt_iff_lt, Bool.or_eq_true, decide_eq_true_eq, not_or, Nat.not_lt,
      Nat.le_zero, List.length_eq_zero, getGlobalGroups, List.map_eq_nil_iff] at hcond
    simp [hcond.1, hcond.2]

theorem saveGroups_hide (st : StorageState) (mod : List FileGroup) :
    (saveGroups st mod).hideGlobalGroups = st.hideGlobalGroups := by
  simp only [saveGroups]
  split <;> rfl

/-- Every member of the global partition already carries `isGlobal =
true`, so the re-marking map is the identity there. -/
theorem map_normalizeGlobal_filter (mod : List FileGroup) :
    (mod.filter (fun g => g.isGlobal)).map normalizeGlobal =
      mod.filter (fun g => g.isGlobal) := by
  have : ∀ g ∈ mod.filter (fun g => g.isGlobal), normalizeGlobal g = id g := by
    intro g hg
    exact normalizeGlobal_eq_self (by simpa using (List.mem_filter.mp hg).2)
  rw [List.map_congr_left this, List.map_id]

theorem map_normalizeLocal_filter (mod : List FileGroup) :
    (mod.filter (fun g => !g.isGlobal)).map normalizeLocal =
      mod.filter (fun g => !g.isGlobal) := by
  have : ∀ g ∈ mod.filter (fun g => !g.isGlobal), normalizeLocal g = id g := by
    intro g hg
    exact normalizeLocal_eq_self (by simpa using (List.mem_filter.mp hg).2)
  rw [List.map_congr_left this, List.map_id]

/-- Reading back a saved forest with global groups visible yields the
saved forest, repartitioned global-first. -/
theorem getGroups_saveGroups_of_not_hidden {st : StorageState}
    (hh : st.hideGlobalGroups = false) (mod : List FileGroup) :
    getGroups (saveGroups st mod) =
      mod.filter (fun g => g.isGlobal) ++ mod.filter (fun g => !g.isGlobal) := by
  rw [getGroups, saveGroups_hide, hh]
  simp only [Bool.false_eq_true, if_false, getGlobalGroups,
    saveGroups_globalGroups, saveGroups_localGroups]
  rw [map_normalizeLocal_filter]
  rw [map_normalizeGlobal_filter, map_normalizeGlobal_filter]

/-- Reading back a saved forest with global groups hidden yields the
saved local partition. -/
theorem getGroups_saveGroups_of_hidden {st : StorageState}
    (hh : st.hideGlobalGroups = true) (mod : List FileGroup) :
    getGroups (saveGroups st mod) = mod.filter (fun g => !g.isGlobal) := by
  rw [getGroups, saveGroups_hide, hh]
  simp only [if_true, saveGroups_localGroups]
  rw [map_normalizeLocal_filter]

/-- Every group read back after a save was in the saved forest. -/
theorem mem_getGroups_saveGroups {st : StorageState} {mod : List FileGroup}
    {g : FileGroup} (hg : g ∈ getGroups (saveGroups st mod)) : g ∈ mod := by
  cases hh : st.hideGlobalGroups with
  | false =>
    rw [getGroups_saveGroups_of_not_hidden hh] at hg
    rcases List.mem_append.mp hg with h | h
    · exact (List.mem_filter.mp h).1
    · exact (List.mem_filter.mp h).1
  | true =>
    rw [getGroups_saveGroups_of_hidden hh] at hg
    exact (List.mem_filter.mp hg).1

/-- The repartitioned forest is a permutation of the saved forest, so its
ids remain pairwise distinct; in the hidden case they form a sublist. -/
theorem nodupIds_getGroups_saveGroups {st : StorageState} {mod : List FileGroup}
    (hN : NodupIds mod) : NodupIds (getGroups (saveGroups st mod)) := by
  have hN' : (mod.map (fun g => g.id)).Nodup := hN
  cases hh : st.hideGlobalGroups with
  | false =>
    rw [NodupIds, getGroups_saveGroups_of_not_hidden hh]
    have hperm : List.Perm
        (mod.filter (fun g => g.isGlobal) ++ mod.filter (fun g => !g.isGlobal)) mod :=
      List.filter_append_perm _ mod
    exact ((hperm.map (fun g => g.id)).nodup_iff).mpr hN'
  | true =>
    rw [NodupIds, getGroups_saveGroups_of_hidden hh]
    exact ((List.filter_sublist mod).map (fun g => g.id)).nodup hN'

/-- After a save, a parent step in the visible forest agrees with the
saved forest wherever it is defined. -/
theorem parentStep_getGroups_saveGroups {st : StorageState} {mod : List FileGroup}
    (hN : NodupIds mod) (i : String) :
    parentStep (getGroups (saveGroups st mod)) i = parentStep mod i ∨
      parentStep (getGroups (saveGroups st mod)) i = none :=
  parentStep_of_subset (fun _ hg => mem_getGroups_saveGroups hg) hN i

/-! ### Cycle-freedom transfer principles -/

/-- Iteration in a subgraph (pointwise equal-or-undefined parent steps)
is reproduced in the larger graph. -/
theorem iterParent_of_subgraph {l₁ l₂ : List FileGroup}
    (h : ∀ i, parentStep l₂ i = parentStep l₁ i ∨ parentStep l₂ i = none) :
    ∀ n i j, iterParent l₂ n i = some j → iterParent l₁ n i = some j := by
  intro n
  induction n with
  | zero => intro i j hij; simpa [iterParent] using hij
  | succ n ih =>
    intro i j hij
    simp only [iterParent] at hij ⊢
    cases hstep : parentStep l₂ i with
    | none => rw [hstep] at hij; simp at hij
    | some k =>
      rw [hstep] at hij
      simp only [Option.some_bind] at hij
      rcases h i with heq | hnone
      · rw [← heq, hstep]
        simpa using ih k j hij
      · rw [hstep] at hnone; cases hnone

/-- A subgraph of a cycle-free graph is cycle-free. -/
theorem acyclic_of_subgraph {l₁ l₂ : List FileGroup}
    (h : ∀ i, parentStep l₂ i = parentStep l₁ i ∨ parentStep l₂ i = none)
    (hacy : Acyclic l₁) : Acyclic l₂ := by
  intro i n hn hcyc
  exact hacy i n hn (iterParent_of_subgraph h n i i hcyc)

/-- As long as a walk in the reparented graph avoids the reparented node,
it agrees with the original graph. -/
theorem iterParent_reparent_avoid {l₁ l₂ : List FileGroup} {d : String} {t : Option String}
    (h : ∀ i, parentStep l₂ i = if i = d then t else parentStep l₁ i) :
    ∀ n i, (∀ m, m < n → iterParent l₂ m i ≠ some d) →
      iterParent l₂ n i = iterParent l₁ n i := by
  intro n
  induction n with
  | zero => intro i _; rfl
  | succ n ih =>
    intro i havoid
    have hi : i ≠ d := by
      intro hid
      exact havoid 0 (Nat.succ_pos n) (by simp [iterParent, hid])
    have hstep : parentStep l₂ i = parentStep l₁ i := by
      rw [h i, if_neg hi]
    simp only [iterParent, hstep]
    cases hk : parentStep l₁ i with
    | none => rfl
    | some k =>
      simp only [Option.some_bind]
      apply ih
      intro m hm hkd
      apply havoid (m + 1) (by omega)
      simp [iterParent, hstep, hk, hkd]

/-- Reparenting `d` under `t` preserves cycle-freedom provided `t ≠ d`
and `d` is not an ancestor of `t` in the original graph — exactly the
two conditions the drop handler checks. -/
theorem acyclic_reparent {l₁ l₂ : List FileGroup} {d t : String}
    (h : ∀ i, parentStep l₂ i = if i = d then some t else parentStep l₁ i)
    (htd : t ≠ d)
    (hreach : ∀ k, 0 < k → iterParent l₁ k t ≠ some d)
    (hacy : Acyclic l₁) : Acyclic l₂ := by
  intro i n hn hcyc
  by_cases hvisit : ∃ m, m < n ∧ iterParent l₂ m i = some d
  · -- rotate the cycle so that it passes through `d` at its start
    rcases hvisit with ⟨m, hm, hmd⟩
    have hsplit1 : iterParent l₂ (n - m) d = some i := by
      have := iterParent_add l₂ m (n - m) i
      rw [Nat.add_sub_cancel' (Nat.le_of_lt hm)] at this
      rw [hcyc, hmd] at this
      simpa using this.symm
    have hcycd : iterParent l₂ n d = some d := by
      have := iterParent_add l₂ (n - m) m d
      rw [Nat.sub_add_cancel (Nat.le_of_lt hm)] at this
      rw [hsplit1] at this
      simpa [hmd] using this
    -- unfold one step from `d`: its new parent is `t`
    rcases Nat.exists_eq_succ_of_ne_zero (Nat.pos_iff_ne_zero.mp hn) with ⟨k, hk⟩
    rw [hk] at hcycd
    have hstepd : parentStep l₂ d = some t := by rw [h d, if_pos rfl]
    simp only [iterParent, hstepd, Option.bind_some] at hcycd
    -- take the first time the walk from `t` reaches `d`
    have hex : ∃ j, iterParent l₂ j t = some d := ⟨k, by simpa using hcycd⟩
    have hj := Nat.find_spec hex
    have hjmin : ∀ m, m < Nat.find hex → iterParent l₂ m t ≠ some d :=
      fun m hm => Nat.find_min hex hm
    have hagree : iterParent l₂ (Nat.find hex) t = iterParent l₁ (Nat.find hex) t :=
      iterParent_reparent_avoid h (Nat.find hex) t hjmin
    rcases Nat.eq_zero_or_pos (Nat.find hex) with hz | hpos
    · rw [hz] at hj
      simp only [iterParent, Option.some_inj] at hj
      exact htd hj
    · exact hreach (Nat.find hex) hpos (hagree ▸ hj)
  · push_neg at hvisit
    have := iterParent_reparent_avoid h n i (fun m hm => hvisit m hm)
    exact hacy i n hn (this ▸ hcyc)

/-! ### How single-group edits act on the parent graph -/

theorem applyUpdates_id (g : FileGroup) (u : GroupUpdate) :
    (applyUpdates g u).id = g.id := rfl

theorem applyUpdates_parentId_of_none {u : GroupUpdate} (hu : u.parentId = none)
    (g : FileGroup) : (applyUpdates g u).parentId = g.parentId := by
  simp [applyUpdates, hu]

/-- `parentStep l₂` is pointwise either `parentStep l₁` or undefined. -/
def Subgraph (l₂ l₁ : List FileGroup) : Prop :=
  ∀ i, parentStep l₂ i = parentStep l₁ i ∨ parentStep l₂ i = none

theorem Subgraph.trans {l₃ l₂ l₁ : List FileGroup}
    (h32 : Subgraph l₃ l₂) (h21 : Subgraph l₂ l₁) : Subgraph l₃ l₁ := by
  intro i
  rcases h32 i with h | h
  · rcases h21 i with h' | h'
    · left; rw [h, h']
    · right; rw [h, h']
  · right; exact h

theorem not_reach_of_subgraph {l₂ l₁ : List FileGroup} {t d : String}
    (h : Subgraph l₂ l₁) (hnr : ∀ k, 0 < k → iterParent l₁ k t ≠ some d) :
    ∀ k, 0 < k → iterParent l₂ k t ≠ some d := by
  intro k hk hiter
  exact hnr k hk (iterParent_of_subgraph h k t d hiter)

theorem lookupGroup_map (f : FileGroup → FileGroup)
    (hfid : ∀ g, (f g).id = g.id) (l : List FileGroup) (i : String) :
    lookupGroup (l.map f) i = (lookupGroup l i).map f := by
  induction l with
  | nil => rfl
  | cons a l ih =>
    by_cases hai : a.id = i
    · have e1 : lookupGroup (f a :: l.map f) i = some (f a) :=
        @List.find?_cons_of_pos FileGroup (fun g => g.id == i) (f a) (l.map f) (by simp [hfid, hai])
      have e2 : lookupGroup (a :: l) i = some a :=
        @List.find?_cons_of_pos FileGroup (fun g => g.id == i) a l (by simp [hai])
      rw [List.map_cons, e1, e2, Option.map_some']
    · have e1 : lookupGroup (f a :: l.map f) i = lookupGroup (l.map f) i :=
        @List.find?_cons_of_neg FileGroup (fun g => g.id == i) (f a) (l.map f) (by simp [hfid, hai])
      have e2 : lookupGroup (a :: l) i = lookupGroup l i :=
        @List.find?_cons_of_neg FileGroup (fun g => g.id == i) a l (by simp [hai])
      rw [List.map_cons, e1, e2, ih]

theorem parentStep_map (f : FileGroup → FileGroup)
    (hfid : ∀ g, (f g).id = g.id) (hfpar : ∀ g, (f g).parentId = g.parentId)
    (l : List FileGroup) (i : String) :
    parentStep (l.map f) i = parentStep l i := by
  rw [parentStep, lookupGroup_map f hfid, parentStep]
  cases lookupGroup l i with
  | none => rfl
  | some g => simp [hfpar]

theorem ids_map (f : FileGroup → FileGroup) (hfid : ∀ g, (f g).id = g.id)
    (l : List FileGroup) : (l.map f).map (fun g => g.id) = l.map (fun g => g.id) := by
  rw [List.map_map]
  exact List.map_congr_left (fun g _ => hfid g)

/-- Lookup through a first-match rewrite: the rewritten position keeps
its id, so lookups of other ids are untouched and a lookup of the
rewritten id sees the rewrite. -/
theorem lookupGroup_modifyFirst (f : FileGroup → FileGroup)
    (hfid : ∀ g, (f g).id = g.id) (gid : String) (l : List FileGroup) (i : String) :
    lookupGroup (modifyFirst (fun g => g.id == gid) f l) i =
      if i = gid then (lookupGroup l gid).map f else lookupGroup l i := by
  induction l with
  | nil => simp only [modifyFirst, lookupGroup, List.find?_nil, Option.map_none']; split <;> rfl
  | cons a l ih =>
    by_cases hag : a.id = gid
    · rw [modifyFirst, if_pos (by simp [hag])]
      by_cases hig : i = gid
      · have e1 : lookupGroup (f a :: l) i = some (f a) :=
          @List.find?_cons_of_pos FileGroup (fun g => g.id == i) (f a) l (by simp [hfid, hag, hig])
        have e2 : lookupGroup (a :: l) gid = some a :=
          @List.find?_cons_of_pos FileGroup (fun g => g.id == gid) a l (by simp [hag])
        rw [e1, if_pos hig, e2, Option.map_some']
      · have e1 : lookupGroup (f a :: l) i = lookupGroup l i :=
          @List.find?_cons_of_neg FileGroup (fun g => g.id == i) (f a) l
            (by simp [hfid, hag]; exact fun h => hig h.symm)
        have e2 : lookupGroup (a :: l) i = lookupGroup l i :=
          @List.find?_cons_of_neg FileGroup (fun g => g.id == i) a l
            (by simp [hag]; exact fun h => hig h.symm)
        rw [e1, if_neg hig, e2]
    · rw [modifyFirst, if_neg (by simp [hag])]
      by_cases hig : i = gid
      · have e1 : lookupGroup (a :: modifyFirst (fun g => g.id == gid) f l) i =
            lookupGroup (modifyFirst (fun g => g.id == gid) f l) i :=
          @List.find?_cons_of_neg FileGroup (fun g => g.id == i) a _ (by simp [hig, hag])
        have e2 : lookupGroup (a :: l) gid = lookupGroup l gid :=
          @List.find?_cons_of_neg FileGroup (fun g => g.id == gid) a l (by simp [hag])
        rw [e1, if_pos hig, e2, ih, if_pos hig]
      · by_cases hai : a.id = i
        · have e1 : lookupGroup (a :: modifyFirst (fun g => g.id == gid) f l) i = some a :=
            @List.find?_cons_of_pos FileGroup (fun g => g.id == i) a _ (by simp [hai])
          have e2 : lookupGroup (a :: l) i = some a :=
            @List.find?_cons_of_pos FileGroup (fun g => g.id == i) a l (by simp [hai])
          rw [e1, if_neg hig, e2]
        · have e1 : lookupGroup (a :: modifyFirst (fun g => g.id == gid) f l) i =
              lookupGroup (modifyFirst (fun g => g.id == gid) f l) i :=
            @List.find?_cons_of_neg FileGroup (fun g => g.id == i) a _ (by simp [hai])
          have e2 : lookupGroup (a :: l) i = lookupGroup l i :=
            @List.find?_cons_of_neg FileGroup (fun g => g.id == i) a l (by simp [hai])
          rw [e1, if_neg hig, e2, ih, if_neg hig]

/-- A first-match rewrite with an id-preserving function leaves the id
sequence unchanged. -/
theorem ids_modifyFirst (f : FileGroup → FileGroup)
    (hfid : ∀ g, (f g).id = g.id) (p : FileGroup → Bool) (l : List FileGroup) :
    (modifyFirst p f l).map (fun g => g.id) = l.map (fun g => g.id) := by
  induction l with
  | nil => rfl
  | cons a l ih =>
    rw [modifyFirst]
    split
    · simp [hfid]
    · simpa using ih

theorem mem_modifyFirst {f : FileGroup → FileGroup} {p : FileGroup → Bool}
    {l : List FileGroup} {g : FileGroup} (hg : g ∈ modifyFirst p f l) :
    g ∈ l ∨ ∃ g₀ ∈ l, g = f g₀ := by
  induction l with
  | nil => cases hg
  | cons a l ih =>
    rw [modifyFirst] at hg
    split at hg
    · rcases List.mem_cons.mp hg with h | h
      · exact Or.inr ⟨a, List.mem_cons_self a l, h⟩
      · exact Or.inl (List.mem_cons_of_mem a h)
    · rcases List.mem_cons.mp hg with h | h
      · exact Or.inl (h ▸ List.mem_cons_self a l)
      · rcases ih h with h' | ⟨g₀, hg₀, hfg₀⟩
        · exact Or.inl (List.mem_cons_of_mem a h')
        · exact Or.inr ⟨g₀, List.mem_cons_of_mem a hg₀, hfg₀⟩

theorem any_id_iff_lookup (l : List FileGroup) (gid : String) :
    l.any (fun g => g.id == gid) = true ↔ (lookupGroup l gid).isSome := by
  rw [List.any_eq_true, lookupGroup, List.find?_isSome]

theorem updateGroup_of_not_found {st : StorageState} {gid : String}
    (h : lookupGroup (getGroups st) gid = none) (u : GroupUpdate) :
    updateGroup st gid u = st := by
  rw [updateGroup, if_neg]
  intro hany
  have := (any_id_iff_lookup (getGroups st) gid).mp hany
  rw [h] at this
  cases this

theorem updateGroup_of_found {st : StorageState} {gid : String} {g : FileGroup}
    (h : lookupGroup (getGroups st) gid = some g) (u : GroupUpdate) :
    updateGroup st gid u = saveGroups st
      (modifyFirst (fun x => x.id == gid) (fun x => applyUpdates x u) (getGroups st)) := by
  rw [updateGroup, if_pos]
  apply (any_id_iff_lookup (getGroups st) gid).mpr
  rw [h]
  rfl

/-- Rewriting the first group with id `gid` to carry `parentId := v`
performs a pointwise update of the parent graph at `gid`. -/
theorem parentStep_reparent {groups : List FileGroup} {gid : String} {g : FileGroup}
    (hfound : lookupGroup groups gid = some g) (v : Option String) (i : String) :
    parentStep (modifyFirst (fun x => x.id == gid)
        (fun x => applyUpdates x { parentId := some v }) groups) i =
      if i = gid then v else parentStep groups i := by
  rw [parentStep, lookupGroup_modifyFirst
    (fun x => applyUpdates x { parentId := some v }) (fun _ => rfl) gid groups i]
  by_cases hig : i = gid
  · rw [if_pos hig, if_pos hig, hfound]
    simp [applyUpdates]
  · rw [if_neg hig, if_neg hig, parentStep]

/-- Dropping a group to the root (`parentId := undefined`) preserves key
uniqueness and cycle-freedom. -/
theorem updateGroup_root_preserves (st : StorageState) (gid : String)
    (hN : NodupIds (getGroups st)) (hacy : Acyclic (getGroups st)) :
    NodupIds (getGroups (updateGroup st gid { parentId := some none })) ∧
      Acyclic (getGroups (updateGroup st gid { parentId := some none })) := by
  cases hfound : lookupGroup (getGroups st) gid with
  | none => rw [updateGroup_of_not_found hfound]; exact ⟨hN, hacy⟩
  | some g =>
    rw [updateGroup_of_found hfound]
    set mod := modifyFirst (fun x => x.id == gid)
      (fun x => applyUpdates x { parentId := some none }) (getGroups st) with hmod
    have hNmod : NodupIds mod := by
      rw [NodupIds, hmod, ids_modifyFirst
        (fun x => applyUpdates x { parentId := some none }) (fun _ => rfl)]
      exact hN
    have hsub : Subgraph mod (getGroups st) := by
      intro i
      rw [hmod, parentStep_reparent hfound none i]
      by_cases hig : i = gid
      · right; rw [if_pos hig]
      · left; rw [if_neg hig]
    have hamod : Acyclic mod := acyclic_of_subgraph hsub hacy
    refine ⟨nodupIds_getGroups_saveGroups hNmod, ?_⟩
    exact acyclic_of_subgraph (fun i => parentStep_getGroups_saveGroups hNmod i) hamod

/-- Reparenting a group under a target that is neither itself nor one of
its descendants preserves key uniqueness and cycle-freedom. -/
theorem updateGroup_reparent_preserves (st : StorageState) (gid t : String)
    (hN : NodupIds (getGroups st)) (hacy : Acyclic (getGroups st))
    (htd : t ≠ gid)
    (hreach : ∀ k, 0 < k → iterParent (getGroups st) k t ≠ some gid) :
    NodupIds (getGroups (updateGroup st gid { parentId := some (some t) })) ∧
      Acyclic (getGroups (updateGroup st gid { parentId := some (some t) })) := by
  cases hfound : lookupGroup (getGroups st) gid with
  | none => rw [updateGroup_of_not_found hfound]; exact ⟨hN, hacy⟩
  | some g =>
    rw [updateGroup_of_found hfound]
    set mod := modifyFirst (fun x => x.id == gid)
      (fun x => applyUpdates x { parentId := some (some t) }) (getGroups st) with hmod
    have hNmod : NodupIds mod := by
      rw [NodupIds, hmod, ids_modifyFirst
        (fun x => applyUpdates x { parentId := some (some t) }) (fun _ => rfl)]
      exact hN
    have hamod : Acyclic mod := by
      apply acyclic_reparent (d := gid) (t := t) ?_ htd hreach hacy
      intro i
      rw [hmod, parentStep_reparent hfound (some t) i]
    refine ⟨nodupIds_getGroups_saveGroups hNmod, ?_⟩
    exact acyclic_of_subgraph (fun i => parentStep_getGroups_saveGroups hNmod i) hamod

/-- A recursive update whose patch does not touch `parentId` (the
cross-store `isGlobal` migrations) leaves the parent graph inside a
subgraph of the original and preserves key uniqueness and
cycle-freedom. -/
theorem updateGroupRecursive_preserves (st : StorageState) (gid : String)
    (u : GroupUpdate) (hu : u.parentId = none)
    (hN : NodupIds (getGroups st)) (hacy : Acyclic (getGroups st))
    {st' : StorageState} (h : updateGroupRecursive st gid u = some st') :
    NodupIds (getGroups st') ∧ Acyclic (getGroups st') ∧
      Subgraph (getGroups st') (getGroups st) := by
  rw [updateGroupRecursive] at h
  rcases Option.map_eq_some'.mp h with ⟨ids, _, hst'⟩
  set f : FileGroup → FileGroup :=
    fun g => if ids.contains g.id then applyUpdates g u else g with hf
  have hfid : ∀ g, (f g).id = g.id := by
    intro g; rw [hf]; dsimp only; split <;> rfl
  have hfpar : ∀ g, (f g).parentId = g.parentId := by
    intro g; rw [hf]; dsimp only; split
    · exact applyUpdates_parentId_of_none hu g
    · rfl
  have hNmod : NodupIds ((getGroups st).map f) := by
    rw [NodupIds, ids_map f hfid]
    exact hN
  have hstep : ∀ i, parentStep ((getGroups st).map f) i = parentStep (getGroups st) i :=
    parentStep_map f hfid hfpar (getGroups st)
  have hsubmod : Subgraph ((getGroups st).map f) (getGroups st) := fun i => Or.inl (hstep i)
  have hsub' : Subgraph (getGroups st') ((getGroups st).map f) := by
    rw [← hst']
    exact fun i => parentStep_getGroups_saveGroups hNmod i
  have hsub : Subgraph (getGroups st') (getGroups st) := hsub'.trans hsubmod
  refine ⟨?_, acyclic_of_subgraph hsub hacy, hsub⟩
  rw [← hst']
  exact nodupIds_getGroups_saveGroups hNmod

/-! ### Fuel sufficiency: descendant chains of an acyclic forest are
short, so the fuel of the modelled recursions is never exhausted there. -/

/-- Downward chains of child edges starting at a node, recorded as the
list of visited child ids. -/
inductive DescChainL (groups : List FileGroup) : String → List String → Prop
  | nil (p : String) : DescChainL groups p []
  | cons {p : String} {g : FileGroup} {rest : List String} :
      g ∈ groups → g.parentId = some p → DescChainL groups g.id rest →
      DescChainL groups p (g.id :: rest)

/-- Walking a chain upward: the `j`-th chain node returns to the chain's
start in `j + 1` parent steps. -/
theorem descChainL_iter {groups : List FileGroup} (hN : NodupIds groups) :
    ∀ {p : String} {l : List String}, DescChainL groups p l →
      ∀ j (hj : j < l.length), iterParent groups (j + 1) (l.get ⟨j, hj⟩) = some p := by
  intro p l hchain
  induction hchain with
  | nil q => intro j hj; simp at hj
  | @cons q g rest hg hpar _ ih =>
    intro j hj
    have hstep : parentStep groups g.id = some q := by
      rw [parentStep, lookupGroup_eq_of_nodup hN hg, Option.some_bind, hpar]
    cases j with
    | zero =>
      show iterParent groups 1 g.id = some q
      rw [iterParent, hstep, Option.some_bind, iterParent]
    | succ j =>
      have hj' : j < rest.length := by simpa using hj
      show iterParent groups (j + 1 + 1) (rest.get ⟨j, hj'⟩) = some q
      rw [iterParent_add groups (j + 1) 1, ih j hj', Option.some_bind, iterParent, hstep,
        Option.some_bind, iterParent]

/-- In an acyclic forest with unique ids, chain nodes are pairwise
distinct: a repeat would be a cycle. -/
theorem descChainL_nodup {groups : List FileGroup} (hN : NodupIds groups)
    (hacy : Acyclic groups) :
    ∀ {p : String} {l : List String}, DescChainL groups p l → l.Nodup := by
  intro p l hchain
  induction hchain with
  | nil q => exact List.nodup_nil
  | @cons q g rest _ _ hrest ih =>
    rw [List.nodup_cons]
    refine ⟨?_, ih⟩
    intro hmem
    rcases List.mem_iff_get.mp hmem with ⟨⟨j, hj⟩, hget⟩
    have := descChainL_iter hN hrest j hj
    rw [hget] at this
    exact hacy _ (j + 1) (Nat.succ_pos j) this

theorem descChainL_subset {groups : List FileGroup} :
    ∀ {p : String} {l : List String}, DescChainL groups p l →
      ∀ x ∈ l, x ∈ groups.map (fun g => g.id) := by
  intro p l hchain
  induction hchain with
  | nil q => intro x hx; cases hx
  | @cons q g rest hg _ _ ih =>
    intro x hx
    rcases List.mem_cons.mp hx with h | h
    · exact h ▸ List.mem_map.mpr ⟨g, hg, rfl⟩
    · exact ih x h

theorem descChainL_length_le {groups : List FileGroup} (hN : NodupIds groups)
    (hacy : Acyclic groups) {p : String} {l : List String}
    (hchain : DescChainL groups p l) : l.length ≤ groups.length := by
  have hnodup := descChainL_nodup hN hacy hchain
  have hsub := descChainL_subset hchain
  calc l.length = l.toFinset.card := (List.toFinset_card_of_nodup hnodup).symm
    _ ≤ (groups.map (fun g => g.id)).toFinset.card := by
        apply Finset.card_le_card
        intro x hx
        rw [List.mem_toFinset] at hx ⊢
        exact hsub x hx
    _ ≤ (groups.map (fun g => g.id)).length := List.toFinset_card_le _
    _ = groups.length := List.length_map _ _

theorem foldl_findChildren_isSome (groups : List FileGroup) (fuel : Nat) :
    ∀ (cs : List FileGroup),
      (∀ c ∈ cs, ∀ acc, (findChildren groups fuel c.id acc).isSome) →
      ∀ acc, (cs.foldl
        (fun acc child => acc.bind (fun l => findChildren groups fuel child.id (addId child.id l)))
        (some acc)).isSome := by
  intro cs
  induction cs with
  | nil => intro _ acc; simp
  | cons c cs ih =>
    intro hrec acc
    rw [List.foldl_cons]
    have h1 := hrec c (List.mem_cons_self c cs) (addId c.id acc)
    rcases Option.isSome_iff_exists.mp h1 with ⟨acc', hacc'⟩
    have h2 : (some acc).bind
        (fun l => findChildren groups fuel c.id (addId c.id l)) = some acc' := by
      rw [Option.some_bind]; exact hacc'
    rw [h2]
    exact ih (fun c' hc' => hrec c' (List.mem_cons_of_mem _ hc')) acc'

/-- The descendant walk completes whenever the fuel strictly exceeds
every descendant chain from the start node. -/
theorem findChildren_isSome_of_chains (groups : List FileGroup) :
    ∀ (fuel : Nat) (p : String),
      (∀ l, DescChainL groups p l → l.length < fuel) →
      ∀ acc, (findChildren groups fuel p acc).isSome := by
  intro fuel
  induction fuel with
  | zero =>
    intro p hch acc
    exact absurd (hch [] (DescChainL.nil p)) (by omega)
  | succ fuel ih =>
    intro p hch acc
    rw [findChildren]
    apply foldl_findChildren_isSome
    intro c hc acc'
    apply ih
    intro l hl
    have hcmem := List.mem_filter.mp hc
    have hcpar : c.parentId = some p := by simpa [beq_iff_eq] using hcmem.2
    have hchain : DescChainL groups p (c.id :: l) := DescChainL.cons hcmem.1 hcpar hl
    have h3 := hch _ hchain
    simp only [List.length_cons] at h3
    omega

/-- On an acyclic forest with unique ids the modelled
`getGroupAndChildIds` never exhausts its fuel: it terminates exactly as
the JS recursion does there. -/
theorem getGroupAndChildIds_isSome (groups : List FileGroup)
    (hN : NodupIds groups) (hacy : Acyclic groups) (gid : String) :
    (getGroupAndChildIds gid groups).isSome := by
  rw [getGroupAndChildIds]
  apply findChildren_isSome_of_chains
  intro l hl
  have := descChainL_length_le hN hacy hl
  omega

/-! ### The `isDescendant` walk computes ancestor reachability -/

theorem isDescendantFuel_sound (groups : List FileGroup) :
    ∀ (fuel : Nat) (cur anc : String), isDescendantFuel groups fuel cur anc = true →
      ∃ k, 0 < k ∧ iterParent groups k cur = some anc := by
  intro fuel
  induction fuel with
  | zero => intro cur anc h; cases h
  | succ fuel ih =>
    intro cur anc h
    rw [isDescendantFuel] at h
    cases hlook : lookupGroup groups cur with
    | none => rw [hlook] at h; cases h
    | some g =>
      rw [hlook] at h
      have h' : (match g.parentId with
          | none => false
          | some p => p == anc || isDescendantFuel groups fuel p anc) = true := h
      cases hpar : g.parentId with
      | none => rw [hpar] at h'; cases h'
      | some p =>
        rw [hpar] at h'
        have hstep : parentStep groups cur = some p := by
          rw [parentStep, hlook, Option.some_bind, hpar]
        rcases Bool.or_eq_true_iff.mp h' with h1 | h2
        · have hpa : p = anc := by simpa using h1
          refine ⟨1, Nat.one_pos, ?_⟩
          rw [iterParent, hstep, Option.some_bind, iterParent, hpa]
        · rcases ih p anc h2 with ⟨k, hk, hiter⟩
          refine ⟨k + 1, Nat.succ_pos k, ?_⟩
          rw [iterParent, hstep, Option.some_bind]
          exact hiter

theorem isDescendantFuel_complete (groups : List FileGroup) :
    ∀ (k fuel : Nat) (cur anc : String), 0 < k → k ≤ fuel →
      iterParent groups k cur = some anc →
      (∀ m, 0 < m → m < k → iterParent groups m cur ≠ some anc) →
      isDescendantFuel groups fuel cur anc = true := by
  intro k
  induction k with
  | zero => intro fuel cur anc h0; omega
  | succ k ih =>
    intro fuel cur anc _ hkf hiter hmin
    rcases Nat.exists_eq_succ_of_ne_zero (show fuel ≠ 0 by omega) with ⟨f, rfl⟩
    rw [iterParent] at hiter
    cases hstep : parentStep groups cur with
    | none => rw [hstep] at hiter; cases hiter
    | some p =>
      rw [hstep, Option.some_bind] at hiter
      have hlook : ∃ g, lookupGroup groups cur = some g ∧ g.parentId = some p := by
        rw [parentStep] at hstep
        cases hl : lookupGroup groups cur with
        | none => rw [hl] at hstep; cases hstep
        | some g => rw [hl, Option.some_bind] at hstep; exact ⟨g, rfl, hstep⟩
      rcases hlook with ⟨g, hl, hp⟩
      rw [isDescendantFuel, hl]
      show (match g.parentId with
        | none => false
        | some q => q == anc || isDescendantFuel groups f q anc) = true
      rw [hp]
      show (p == anc || isDescendantFuel groups f p anc) = true
      by_cases hpa : p = anc
      · simp [hpa]
      · rcases Nat.eq_zero_or_pos k with hz | hpos
        · rw [hz] at hiter
          rw [iterParent] at hiter
          exact absurd (Option.some_inj.mp hiter) hpa
        · have hmin' : ∀ m, 0 < m → m < k → iterParent groups m p ≠ some anc := by
            intro m hm0 hmk hbad
            apply hmin (m + 1) (by omega) (by omega)
            rw [iterParent, hstep, Option.some_bind]
            exact hbad
          have hrec := ih f p anc hpos (by omega) hiter hmin'
          simp [hrec]

/-- Prefixes of a defined iterated walk are defined. -/
theorem iter_isSome_of_le {groups : List FileGroup} {k : Nat} {cur anc : String}
    (hiter : iterParent groups k cur = some anc) :
    ∀ j, j ≤ k → (iterParent groups j cur).isSome := by
  intro j hj
  have hadd := iterParent_add groups j (k - j) cur
  rw [Nat.add_sub_cancel' hj, hiter] at hadd
  cases hjv : iterParent groups j cur with
  | none => rw [hjv] at hadd; simp at hadd
  | some x => simp

/-- In an acyclic graph, a defined iterated walk cannot be longer than
the number of groups: its intermediate nodes are distinct existing
ids. -/
theorem iter_length_bound (groups : List FileGroup) (hacy : Acyclic groups)
    {k : Nat} {cur anc : String}
    (hiter : iterParent groups k cur = some anc) : k ≤ groups.length := by
  classical
  set f : Nat → String := fun j => (iterParent groups j cur).getD "" with hf
  have hmaps : ∀ j ∈ Finset.range k, f j ∈ (groups.map (fun g => g.id)).toFinset := by
    intro j hj
    rw [Finset.mem_range] at hj
    rcases Option.isSome_iff_exists.mp (iter_isSome_of_le hiter j (by omega)) with ⟨x, hx⟩
    have hfx : f j = x := by rw [hf]; simp [hx]
    have hnext : (iterParent groups (j + 1) cur).isSome :=
      iter_isSome_of_le hiter (j + 1) (by omega)
    have hone : iterParent groups (j + 1) cur = parentStep groups x := by
      rw [iterParent_add groups j 1, hx, Option.some_bind, iterParent]
      cases parentStep groups x with
      | none => rfl
      | some y => rw [Option.some_bind, iterParent]
    rw [hone] at hnext
    rcases Option.isSome_iff_exists.mp hnext with ⟨y, hy⟩
    rw [parentStep] at hy
    cases hlx : lookupGroup groups x with
    | none => rw [hlx] at hy; cases hy
    | some g =>
      rcases lookupGroup_mem hlx with ⟨hgmem, hgid⟩
      rw [List.mem_toFinset, hfx]
      exact List.mem_map.mpr ⟨g, hgmem, hgid⟩
  have hinj : Set.InjOn f (Finset.range k) := by
    intro j1 hj1 j2 hj2 hfeq
    rw [Finset.coe_range, Set.mem_Iio] at hj1 hj2
    by_contra hne
    rcases Nat.lt_or_ge j1 j2 with hlt | hge
    · rcases Option.isSome_iff_exists.mp (iter_isSome_of_le hiter j1 (by omega)) with ⟨x1, hx1⟩
      rcases Option.isSome_iff_exists.mp (iter_isSome_of_le hiter j2 (by omega)) with ⟨x2, hx2⟩
      have hx12 : x1 = x2 := by
        have e1 : f j1 = x1 := by rw [hf]; simp [hx1]
        have e2 : f j2 = x2 := by rw [hf]; simp [hx2]
        rw [← e1, ← e2, hfeq]
      have hadd := iterParent_add groups j1 (j2 - j1) cur
      rw [Nat.add_sub_cancel' (by omega : j1 ≤ j2), hx1, Option.some_bind, hx2] at hadd
      rw [hx12] at hadd
      exact hacy x2 (j2 - j1) (by omega) hadd.symm
    · have hlt : j2 < j1 := by omega
      rcases Option.isSome_iff_exists.mp (iter_isSome_of_le hiter j1 (by omega)) with ⟨x1, hx1⟩
      rcases Option.isSome_iff_exists.mp (iter_isSome_of_le hiter j2 (by omega)) with ⟨x2, hx2⟩
      have hx12 : x1 = x2 := by
        have e1 : f j1 = x1 := by rw [hf]; simp [hx1]
        have e2 : f j2 = x2 := by rw [hf]; simp [hx2]
        rw [← e1, ← e2, hfeq]
      have hadd := iterParent_add groups j2 (j1 - j2) cur
      rw [Nat.add_sub_cancel' (by omega : j2 ≤ j1), hx2, Option.some_bind, hx1] at hadd
      rw [hx12] at hadd
      exact hacy x2 (j1 - j2) (by omega) hadd.symm
  have hcard := Finset.card_le_card_of_injOn f hmaps hinj
  rw [Finset.card_range] at hcard
  calc k ≤ (groups.map (fun g => g.id)).toFinset.card := hcard
    _ ≤ (groups.map (fun g => g.id)).length := List.toFinset_card_le _
    _ = groups.length := List.length_map _ _

/-- On an acyclic forest, ancestor reachability implies the fueled walk
reports it: fuel `groups.length` is enough. -/
theorem isDescendant_complete (groups : List FileGroup) (hacy : Acyclic groups)
    {cur anc : String} (h : ∃ k, 0 < k ∧ iterParent groups k cur = some anc) :
    isDescendant groups cur anc = true := by
  have hspec := Nat.find_spec h
  rcases hspec with ⟨hpos, hiter⟩
  have hbound : Nat.find h ≤ groups.length := iter_length_bound groups hacy hiter
  rw [isDescendant]
  apply isDescendantFuel_complete groups (Nat.find h) groups.length cur anc hpos hbound hiter
  intro m hm0 hmk hbad
  exact (Nat.find_min h hmk) ⟨hm0, hbad⟩

/-- If the walk reports no descendant relationship in an acyclic forest,
there really is none. -/
theorem not_reach_of_isDescendant_false (groups : List FileGroup) (hacy : Acyclic groups)
    {cur anc : String} (h : isDescendant groups cur anc = false) :
    ∀ k, 0 < k → iterParent groups k cur ≠ some anc := by
  intro k hk hbad
  have := isDescendant_complete groups hacy ⟨k, hk, hbad⟩
  rw [h] at this
  cases this

/-! ### Drop operations preserve the tree invariants -/

/-- The cross-store migration of a drop succeeds on an acyclic forest
with unique ids, and preserves both invariants together with the
subgraph relation on the parent graph. -/
theorem updateGroupRecursive_isSome (st : StorageState) (gid : String) (u : GroupUpdate)
    (hN : NodupIds (getGroups st)) (hacy : Acyclic (getGroups st)) :
    (updateGroupRecursive st gid u).isSome := by
  rw [updateGroupRecursive, Option.isSome_map']
  exact getGroupAndChildIds_isSome _ hN hacy _

/-- Any single-group drop (onto empty space, onto the global section, or
onto another group) completes without exhausting fuel and preserves key
uniqueness and cycle-freedom of the visible forest. -/
theorem applyDrop_preserves (st : StorageState) (draggedId : String) (target : DropTarget)
    (hN : NodupIds (getGroups st)) (hacy : Acyclic (getGroups st)) :
    ∃ r, applyDrop st draggedId target = some r ∧
      NodupIds (getGroups r.1) ∧ Acyclic (getGroups r.1) := by
  simp only [applyDrop]
  cases hdrag : lookupGroup (getGroups st) draggedId with
  | none => exact ⟨(st, false), rfl, hN, hacy⟩
  | some dragged =>
    cases target with
    | globalSection =>
      dsimp only
      rcases Option.isSome_iff_exists.mp
        (updateGroupRecursive_isSome st dragged.id { isGlobal := some true } hN hacy) with
        ⟨st1, hst1⟩
      rcases updateGroupRecursive_preserves st dragged.id _ rfl hN hacy hst1 with
        ⟨hN1, hacy1, _⟩
      refine ⟨(updateGroup st1 dragged.id { parentId := some none }, false), ?_, ?_, ?_⟩
      · rw [hst1, Option.map_some']
      · exact (updateGroup_root_preserves st1 dragged.id hN1 hacy1).1
      · exact (updateGroup_root_preserves st1 dragged.id hN1 hacy1).2
    | rootLevel =>
      dsimp only
      cases hglob : dragged.isGlobal with
      | true =>
        rcases Option.isSome_iff_exists.mp
          (updateGroupRecursive_isSome st dragged.id { isGlobal := some false } hN hacy) with
          ⟨st1, hst1⟩
        rcases updateGroupRecursive_preserves st dragged.id _ rfl hN hacy hst1 with
          ⟨hN1, hacy1, _⟩
        refine ⟨((if dragged.parentId.isSome then
            updateGroup st1 dragged.id { parentId := some none } else st1), false),
          ?_, ?_, ?_⟩
        · rw [if_pos rfl, hst1, Option.map_some']
        · by_cases hpar : dragged.parentId.isSome
          · rw [if_pos hpar]
            exact (updateGroup_root_preserves st1 dragged.id hN1 hacy1).1
          · rw [if_neg hpar]; exact hN1
        · by_cases hpar : dragged.parentId.isSome
          · rw [if_pos hpar]
            exact (updateGroup_root_preserves st1 dragged.id hN1 hacy1).2
          · rw [if_neg hpar]; exact hacy1
      | false =>
        refine ⟨((if dragged.parentId.isSome then
            updateGroup st dragged.id { parentId := some none } else st), false),
          ?_, ?_, ?_⟩
        · rw [if_neg Bool.false_ne_true, Option.map_some']
        · by_cases hpar : dragged.parentId.isSome
          · rw [if_pos hpar]
            exact (updateGroup_root_preserves st dragged.id hN hacy).1
          · rw [if_neg hpar]; exact hN
        · by_cases hpar : dragged.parentId.isSome
          · rw [if_pos hpar]
            exact (updateGroup_root_preserves st dragged.id hN hacy).2
          · rw [if_neg hpar]; exact hacy
    | group targetId =>
      dsimp only
      cases htar : lookupGroup (getGroups st) targetId with
      | none => exact ⟨(st, false), rfl, hN, hacy⟩
      | some targetGroup =>
        dsimp only
        by_cases heq : dragged.id = targetGroup.id
        · refine ⟨(st, false), ?_, hN, hacy⟩
          rw [if_pos (by simp [heq])]
        · rw [if_neg (by simp [heq])]
          cases hdesc : isDescendant (getGroups st) targetGroup.id dragged.id with
          | true => exact ⟨(st, true), by rw [if_pos rfl], hN, hacy⟩
          | false =>
            rw [if_neg Bool.false_ne_true]
            have hreach0 : ∀ k, 0 < k →
                iterParent (getGroups st) k targetGroup.id ≠ some dragged.id :=
              not_reach_of_isDescendant_false (getGroups st) hacy hdesc
            by_cases hmix : targetGroup.isGlobal != dragged.isGlobal
            · rcases Option.isSome_iff_exists.mp
                (updateGroupRecursive_isSome st dragged.id
                  { isGlobal := some targetGroup.isGlobal } hN hacy) with ⟨st1, hst1⟩
              rcases updateGroupRecursive_preserves st dragged.id _ rfl hN hacy hst1 with
                ⟨hN1, hacy1, hsub1⟩
              have hreach1 : ∀ k, 0 < k →
                  iterParent (getGroups st1) k targetGroup.id ≠ some dragged.id :=
                not_reach_of_subgraph hsub1 hreach0
              refine ⟨(updateGroup st1 dragged.id
                  { parentId := some (some targetGroup.id) }, false), ?_, ?_, ?_⟩
              · rw [if_pos hmix, hst1, Option.map_some']
              · exact (updateGroup_reparent_preserves st1 dragged.id targetGroup.id hN1 hacy1
                  (fun h => heq h.symm) hreach1).1
              · exact (updateGroup_reparent_preserves st1 dragged.id targetGroup.id hN1 hacy1
                  (fun h => heq h.symm) hreach1).2
            · refine ⟨(updateGroup st dragged.id
                  { parentId := some (some targetGroup.id) }, false), ?_, ?_, ?_⟩
              · rw [if_neg hmix, Option.map_some']
              · exact (updateGroup_reparent_preserves st dragged.id targetGroup.id hN hacy
                  (fun h => heq h.symm) hreach0).1
              · exact (updateGroup_reparent_preserves st dragged.id targetGroup.id hN hacy
                  (fun h => heq h.symm) hreach0).2

/-- Invariant preservation extends to arbitrary drop sequences. -/
theorem applyDrops_preserves (ops : List (String × DropTarget)) :
    ∀ st : StorageState, NodupIds (getGroups st) → Acyclic (getGroups st) →
      ∃ st', applyDrops ops st = some st' ∧
        NodupIds (getGroups st') ∧ Acyclic (getGroups st') := by
  induction ops with
  | nil => intro st hN hacy; exact ⟨st, rfl, hN, hacy⟩
  | cons op rest ih =>
    intro st hN hacy
    rcases applyDrop_preserves st op.1 op.2 hN hacy with ⟨r, hr, hNr, hacyr⟩
    rcases ih r.1 hNr hacyr with ⟨st', hst', hN', hacy'⟩
    refine ⟨st', ?_, hN', hacy'⟩
    rw [applyDrops]
    rw [hr, Option.some_bind]
    exact hst'

/-! ### What the descendant walk collects: exactly the transitive
children -/

theorem mem_addId {i x : String} {ids : List String} :
    x ∈ addId i ids ↔ x = i ∨ x ∈ ids := by
  rw [addId]
  split
  · next hmem =>
    constructor
    · exact fun h => Or.inr h
    · rintro (rfl | h)
      · simpa using hmem
      · exact h
  · simp [or_comm]

theorem subset_addId (i : String) (ids : List String) : ids ⊆ addId i ids := by
  intro x hx
  exact mem_addId.mpr (Or.inr hx)

theorem foldl_findChildren_none (groups : List FileGroup) (fuel : Nat)
    (cs : List FileGroup) :
    cs.foldl (fun acc child => acc.bind
      (fun l => findChildren groups fuel child.id (addId child.id l))) none = none := by
  induction cs with
  | nil => rfl
  | cons c cs ih => rw [List.foldl_cons, Option.none_bind]; exact ih

/-- The walk only ever grows the accumulator. -/
theorem findChildren_acc_subset (groups : List FileGroup) :
    ∀ (fuel : Nat) (p : String) (acc r : List String),
      findChildren groups fuel p acc = some r → acc ⊆ r := by
  intro fuel
  induction fuel with
  | zero => intro p acc r h; cases h
  | succ fuel ih =>
    intro p acc r h
    rw [findChildren] at h
    -- inner induction over the processed children
    suffices hgen : ∀ (cs : List FileGroup) (acc r : List String),
        (cs.foldl (fun acc child => acc.bind
          (fun l => findChildren groups fuel child.id (addId child.id l))) (some acc)) = some r →
        acc ⊆ r by
      exact hgen _ acc r h
    intro cs
    induction cs with
    | nil => intro acc r h; cases h; exact fun x hx => hx
    | cons c cs ihcs =>
      intro acc r h
      rw [List.foldl_cons, Option.some_bind] at h
      cases hc : findChildren groups fuel c.id (addId c.id acc) with
      | none => rw [hc, foldl_findChildren_none] at h; cases h
      | some acc1 =>
        rw [hc] at h
        have h1 : acc ⊆ acc1 := fun x hx => ih c.id _ _ hc (subset_addId c.id acc hx)
        exact fun x hx => ihcs acc1 r h (h1 hx)

/-- Every id the walk collects beyond the accumulator is a transitive
child of the start node. -/
theorem findChildren_sound (groups : List FileGroup) :
    ∀ (fuel : Nat) (p : String) (acc r : List String),
      findChildren groups fuel p acc = some r →
      ∀ x ∈ r, x ∈ acc ∨ Desc groups p x := by
  intro fuel
  induction fuel with
  | zero => intro p acc r h; cases h
  | succ fuel ih =>
    intro p acc r h
    rw [findChildren] at h
    suffices hgen : ∀ (cs : List FileGroup),
        (∀ c ∈ cs, c ∈ groups ∧ c.parentId = some p) →
        ∀ (acc r : List String),
        (cs.foldl (fun acc child => acc.bind
          (fun l => findChildren groups fuel child.id (addId child.id l))) (some acc)) = some r →
        ∀ x ∈ r, x ∈ acc ∨ Desc groups p x by
      refine hgen _ ?_ acc r h
      intro c hc
      have hcmem := List.mem_filter.mp hc
      exact ⟨hcmem.1, by simpa [beq_iff_eq] using hcmem.2⟩
    intro cs
    induction cs with
    | nil =>
      intro _ acc r h x hx
      cases h
      exact Or.inl hx
    | cons c cs ihcs =>
      intro hcs acc r h x hx
      rw [List.foldl_cons, Option.some_bind] at h
      cases hc : findChildren groups fuel c.id (addId c.id acc) with
      | none => rw [hc, foldl_findChildren_none] at h; cases h
      | some acc1 =>
        rw [hc] at h
        rcases ihcs (fun c' hc' => hcs c' (List.mem_cons_of_mem _ hc')) acc1 r h x hx with
          hx1 | hdesc
        · rcases ih c.id _ _ hc x hx1 with hx2 | hdesc2
          · rcases mem_addId.mp hx2 with rfl | hx3
            · right
              exact Desc.child (hcs c (List.mem_cons_self c cs)).1
                (hcs c (List.mem_cons_self c cs)).2
            · exact Or.inl hx3
          · right
            exact Desc.step (hcs c (List.mem_cons_self c cs)).1
              (hcs c (List.mem_cons_self c cs)).2 hdesc2
        · exact Or.inr hdesc

/-- After a successful fold, every processed child's id is in the
result. -/
theorem foldl_findChildren_mem (groups : List FileGroup) (fuel : Nat) :
    ∀ (cs : List FileGroup) (acc r : List String),
      (cs.foldl (fun acc child => acc.bind
        (fun l => findChildren groups fuel child.id (addId child.id l))) (some acc)) = some r →
      ∀ c ∈ cs, c.id ∈ r := by
  intro cs
  induction cs with
  | nil => intro acc r _ c hc; cases hc
  | cons c cs ihcs =>
    intro acc r h c' hc'
    rw [List.foldl_cons, Option.some_bind] at h
    cases hc : findChildren groups fuel c.id (addId c.id acc) with
    | none => rw [hc, foldl_findChildren_none] at h; cases h
    | some acc1 =>
      rw [hc] at h
      rcases List.mem_cons.mp hc' with rfl | hmem
      · -- the head's id entered the accumulator and only grows from there
        have h1 : c'.id ∈ acc1 :=
          findChildren_acc_subset groups fuel c'.id _ _ hc (mem_addId.mpr (Or.inl rfl))
        -- the remaining fold only grows the accumulator
        suffices hgrow : ∀ (cs : List FileGroup) (acc r : List String),
            (cs.foldl (fun acc child => acc.bind
              (fun l => findChildren groups fuel child.id (addId child.id l)))
              (some acc)) = some r → acc ⊆ r by
          exact hgrow cs acc1 r h h1
        intro cs'
        induction cs' with
        | nil => intro acc r h; cases h; exact fun x hx => hx
        | cons d ds ihds =>
          intro acc r h
          rw [List.foldl_cons, Option.some_bind] at h
          cases hd : findChildren groups fuel d.id (addId d.id acc) with
          | none => rw [hd, foldl_findChildren_none] at h; cases h
          | some acc2 =>
            rw [hd] at h
            intro x hx
            exact ihds acc2 r h
              (findChildren_acc_subset groups fuel d.id _ _ hd (subset_addId d.id acc hx))
      · exact ihcs acc1 r h c' hmem

/-- After a successful fold, each processed child's own walk succeeded
from some accumulator, with its result flowing into the final one. -/
theorem foldl_findChildren_extract (groups : List FileGroup) (fuel : Nat) :
    ∀ (cs : List FileGroup) (acc r : List String),
      (cs.foldl (fun acc child => acc.bind
        (fun l => findChildren groups fuel child.id (addId child.id l))) (some acc)) = some r →
      ∀ c ∈ cs, ∃ acc0 r0,
        findChildren groups fuel c.id (addId c.id acc0) = some r0 ∧ r0 ⊆ r := by
  intro cs
  induction cs with
  | nil => intro acc r _ c hc; cases hc
  | cons c cs ihcs =>
    intro acc r h c' hc'
    rw [List.foldl_cons, Option.some_bind] at h
    cases hc : findChildren groups fuel c.id (addId c.id acc) with
    | none => rw [hc, foldl_findChildren_none] at h; cases h
    | some acc1 =>
      rw [hc] at h
      rcases List.mem_cons.mp hc' with rfl | hmem
      · refine ⟨acc, acc1, hc, ?_⟩
        suffices hgrow : ∀ (cs : List FileGroup) (acc r : List String),
            (cs.foldl (fun acc child => acc.bind
              (fun l => findChildren groups fuel child.id (addId child.id l)))
              (some acc)) = some r → acc ⊆ r by
          exact hgrow cs acc1 r h
        intro cs'
        induction cs' with
        | nil => intro acc r h; cases h; exact fun x hx => hx
        | cons d ds ihds =>
          intro acc r h
          rw [List.foldl_cons, Option.some_bind] at h
          cases hd : findChildren groups fuel d.id (addId d.id acc) with
          | none => rw [hd, foldl_findChildren_none] at h; cases h
          | some acc2 =>
            rw [hd] at h
            intro x hx
            exact ihds acc2 r h
              (findChildren_acc_subset groups fuel d.id _ _ hd (subset_addId d.id acc hx))
      · exact ihcs acc1 r h c' hmem

/-- Every transitive child of the start node is collected by a
successful walk. -/
theorem findChildren_complete (groups : List FileGroup) {gid x : String}
    (hdesc : Desc groups gid x) :
    ∀ (fuel : Nat) (acc r : List String),
      findChildren groups fuel gid acc = some r → x ∈ r := by
  induction hdesc with
  | @child p g hg hpar =>
    intro fuel acc r h
    cases fuel with
    | zero => cases h
    | succ fuel =>
      rw [findChildren] at h
      apply foldl_findChildren_mem groups fuel _ acc r h
      rw [childrenOf, List.mem_filter]
      exact ⟨hg, by simp [hpar]⟩
  | @step p a g hg hpar _ ih =>
    intro fuel acc r h
    cases fuel with
    | zero => cases h
    | succ fuel =>
      rw [findChildren] at h
      have hgmem : g ∈ childrenOf groups p := by
        rw [childrenOf, List.mem_filter]
        exact ⟨hg, by simp [hpar]⟩
      rcases foldl_findChildren_extract groups fuel _ acc r h g hgmem with
        ⟨acc0, r0, hr0, hr0r⟩
      exact hr0r (ih fuel (addId g.id acc0) r0 hr0)

/-- A successful `getGroupAndChildIds` returns precisely the group
itself together with its transitive children. -/
theorem getGroupAndChildIds_spec {groups : List FileGroup} {gid : String}
    {ids : List String} (h : getGroupAndChildIds gid groups = some ids) :
    ∀ a, a ∈ ids ↔ a = gid ∨ Desc groups gid a := by
  rw [getGroupAndChildIds] at h
  intro a
  constructor
  · intro ha
    rcases findChildren_sound groups _ gid [gid] ids h a ha with hacc | hdesc
    · left; simpa using hacc
    · right; exact hdesc
  · rintro (rfl | hdesc)
    · exact findChildren_acc_subset groups _ a [a] ids h (by simp)
    · exact findChildren_complete groups hdesc _ [gid] ids h

/-! ### Reading back after a save -/

theorem storageState_ext {x y : StorageState} (h1 : x.localGroups = y.localGroups)
    (h2 : x.globalGroups = y.globalGroups)
    (h3 : x.hideGlobalGroups = y.hideGlobalGroups) : x = y := by
  cases x; cases y; simp_all

/-- On a flag-consistent store with global groups visible, the combined
read is literally the two stores concatenated. -/
theorem getGroups_of_wf {st : StorageState} (hwf : WellFormed st)
    (hh : st.hideGlobalGroups = false) :
    getGroups st = st.globalGroups ++ st.localGroups := by
  rw [getGroups, hh]
  simp only [Bool.false_eq_true, if_false]
  congr 1
  · rw [getGlobalGroups]
    have h : ∀ g ∈ st.globalGroups, normalizeGlobal g = id g :=
      fun g hg => normalizeGlobal_eq_self (hwf.1 g hg)
    rw [List.map_congr_left h, List.map_id]
  · have h : ∀ g ∈ st.localGroups, normalizeLocal g = id g :=
      fun g hg => normalizeLocal_eq_self (hwf.2 g hg)
    rw [List.map_congr_left h, List.map_id]

theorem filter_global_partitioned {A B : List FileGroup}
    (hA : ∀ g ∈ A, g.isGlobal = true) (hB : ∀ g ∈ B, g.isGlobal = false) :
    (A ++ B).filter (fun g => g.isGlobal) = A ∧
      (A ++ B).filter (fun g => !g.isGlobal) = B := by
  constructor
  · rw [List.filter_append]
    rw [List.filter_eq_self.mpr (fun g hg => by simp [hA g hg]),
      List.filter_eq_nil_iff.mpr (fun g hg => by simp [hB g hg]), List.append_nil]
  · rw [List.filter_append]
    rw [List.filter_eq_nil_iff.mpr (fun g hg => by simp [hA g hg]),
      List.filter_eq_self.mpr (fun g hg => by simp [hB g hg]), List.nil_append]

/-- Saving a flag-partitioned forest (global groups first) and reading it
back with global groups visible returns it unchanged. -/
theorem getGroups_saveGroups_partitioned {st : StorageState}
    (hh : st.hideGlobalGroups = false) {A B : List FileGroup}
    (hA : ∀ g ∈ A, g.isGlobal = true) (hB : ∀ g ∈ B, g.isGlobal = false) :
    getGroups (saveGroups st (A ++ B)) = A ++ B := by
  rw [getGroups_saveGroups_of_not_hidden hh,
    (filter_global_partitioned hA hB).1, (filter_global_partitioned hA hB).2]

/-- Saving an all-local forest and reading it back with global groups
hidden returns it unchanged. -/
theorem getGroups_saveGroups_allLocal {st : StorageState}
    (hh : st.hideGlobalGroups = true) {B : List FileGroup}
    (hB : ∀ g ∈ B, g.isGlobal = false) :
    getGroups (saveGroups st B) = B := by
  rw [getGroups_saveGroups_of_hidden hh]
  exact List.filter_eq_self.mpr (fun g hg => by simp [hB g hg])

theorem getGlobalGroups_flag (st : StorageState) :
    ∀ g ∈ getGlobalGroups st, g.isGlobal = true := by
  intro g hg
  rcases List.mem_map.mp hg with ⟨g₀, _, rfl⟩
  rfl

theorem normalizeLocal_map_flag (l : List FileGroup) :
    ∀ g ∈ l.map normalizeLocal, g.isGlobal = false := by
  intro g hg
  rcases List.mem_map.mp hg with ⟨g₀, _, rfl⟩
  rfl

theorem getGroups_flag_hidden {st : StorageState} (hh : st.hideGlobalGroups = true) :
    ∀ g ∈ getGroups st, g.isGlobal = false := by
  rw [getGroups, hh]
  simp only [if_true]
  exact normalizeLocal_map_flag _

theorem modifyFirst_flag {f : FileGroup → FileGroup}
    (hflag : ∀ g, (f g).isGlobal = g.isGlobal) {p : FileGroup → Bool}
    {l : List FileGroup} {b : Bool} (hl : ∀ g ∈ l, g.isGlobal = b) :
    ∀ g ∈ modifyFirst p f l, g.isGlobal = b := by
  intro g hg
  rcases mem_modifyFirst hg with h | ⟨g₀, hg₀, rfl⟩
  · exact hl g h
  · rw [hflag]; exact hl g₀ hg₀

theorem modifyFirst_append (p : FileGroup → Bool) (f : FileGroup → FileGroup)
    (A B : List FileGroup) :
    modifyFirst p f (A ++ B) =
      if A.any p then modifyFirst p f A ++ B else A ++ modifyFirst p f B := by
  induction A with
  | nil => simp [modifyFirst]
  | cons a A ih =>
    rw [List.cons_append, modifyFirst]
    by_cases hpa : p a
    · rw [if_pos hpa]
      simp [List.any_cons, hpa, modifyFirst]
    · rw [if_neg hpa, ih]
      simp only [List.any_cons, (by simp [hpa] : (p a || A.any p) = A.any p)]
      split
      · rw [modifyFirst, if_neg hpa, List.cons_append]
      · rw [List.cons_append]

/-- Read-after-save identity for a first-match rewrite of the visible
forest by a store-preserving function, in either visibility mode. -/
theorem getGroups_save_modifyFirst (st : StorageState) (p : FileGroup → Bool)
    (f : FileGroup → FileGroup) (hflag : ∀ g, (f g).isGlobal = g.isGlobal) :
    getGroups (saveGroups st (modifyFirst p f (getGroups st))) =
      modifyFirst p f (getGroups st) := by
  cases hh : st.hideGlobalGroups with
  | true =>
    exact getGroups_saveGroups_allLocal hh
      (modifyFirst_flag hflag (getGroups_flag_hidden hh))
  | false =>
    have hsplit : getGroups st = getGlobalGroups st ++ st.localGroups.map normalizeLocal := by
      rw [getGroups, hh]
      simp
    rw [hsplit, modifyFirst_append]
    split
    · exact getGroups_saveGroups_partitioned hh
        (modifyFirst_flag hflag (getGlobalGroups_flag st)) (normalizeLocal_map_flag _)
    · exact getGroups_saveGroups_partitioned hh
        (getGlobalGroups_flag st) (modifyFirst_flag hflag (normalizeLocal_map_flag _))

/-- Read-after-save identity for a pointwise rewrite of the visible
forest by a store-preserving function, in either visibility mode. -/
theorem getGroups_save_map (st : StorageState) (f : FileGroup → FileGroup)
    (hflag : ∀ g, (f g).isGlobal = g.isGlobal) :
    getGroups (saveGroups st ((getGroups st).map f)) = (getGroups st).map f := by
  cases hh : st.hideGlobalGroups with
  | true =>
    apply getGroups_saveGroups_allLocal hh
    intro g hg
    rcases List.mem_map.mp hg with ⟨g₀, hg₀, rfl⟩
    rw [hflag]
    exact getGroups_flag_hidden hh g₀ hg₀
  | false =>
    have hsplit : getGroups st = getGlobalGroups st ++ st.localGroups.map normalizeLocal := by
      rw [getGroups, hh]
      simp
    rw [hsplit, List.map_append]
    apply getGroups_saveGroups_partitioned hh
    · intro g hg
      rcases List.mem_map.mp hg with ⟨g₀, hg₀, rfl⟩
      rw [hflag]
      exact getGlobalGroups_flag st g₀ hg₀
    · intro g hg
      rcases List.mem_map.mp hg with ⟨g₀, hg₀, rfl⟩
      rw [hflag]
      exact normalizeLocal_map_flag _ g₀ hg₀

/-- `deleteGroup` on a flag-consistent store with global groups visible:
each store keeps exactly its groups whose id is outside the computed
descendant set. -/
theorem deleteGroup_filters {st : StorageState} {gid : String} {ids : List String}
    (hwf : WellFormed st) (hh : st.hideGlobalGroups = false)
    (hids : getGroupAndChildIds gid (getGroups st) = some ids) :
    deleteGroup st gid = some
      { st with
        localGroups := st.localGroups.filter (fun g => !ids.contains g.id)
        globalGroups := st.globalGroups.filter (fun g => !ids.contains g.id) } := by
  rw [deleteGroup, hids, Option.map_some']
  apply congrArg some
  have hG := getGroups_of_wf hwf hh
  have hkeep : (getGroups st).filter (fun g => !ids.contains g.id) =
      st.globalGroups.filter (fun g => !ids.contains g.id) ++
        st.localGroups.filter (fun g => !ids.contains g.id) := by
    rw [hG, List.filter_append]
  apply storageState_ext
  · rw [saveGroups_localGroups, hkeep, List.filter_append]
    have e1 : (st.globalGroups.filter (fun g => !ids.contains g.id)).filter
        (fun g => !g.isGlobal) = [] :=
      List.filter_eq_nil_iff.mpr (fun g hg => by
        simp [hwf.1 g (List.mem_filter.mp hg).1])
    have e2 : (st.localGroups.filter (fun g => !ids.contains g.id)).filter
        (fun g => !g.isGlobal) = st.localGroups.filter (fun g => !ids.contains g.id) :=
      List.filter_eq_self.mpr (fun g hg => by
        simp [hwf.2 g (List.mem_filter.mp hg).1])
    rw [e1, e2, List.nil_append]
  · rw [saveGroups_globalGroups, hkeep, List.filter_append]
    have e1 : (st.globalGroups.filter (fun g => !ids.contains g.id)).filter
        (fun g => g.isGlobal) = st.globalGroups.filter (fun g => !ids.contains g.id) :=
      List.filter_eq_self.mpr (fun g hg => by
        simp [hwf.1 g (List.mem_filter.mp hg).1])
    have e2 : (st.localGroups.filter (fun g => !ids.contains g.id)).filter
        (fun g => g.isGlobal) = [] :=
      List.filter_eq_nil_iff.mpr (fun g hg => by
        simp [hwf.2 g (List.mem_filter.mp hg).1])
    rw [e1, e2, List.append_nil]
    have h : ∀ g ∈ st.globalGroups.filter (fun g => !ids.contains g.id),
        normalizeGlobal g = id g := by
      intro g hg
      exact normalizeGlobal_eq_self (hwf.1 g (List.mem_filter.mp hg).1)
    rw [List.map_congr_left h, List.map_id]
  · rw [saveGroups_hide]

/-! ### A decidable entry point into `Acyclic` -/

theorem iter_val_mem_ids {groups : List FileGroup} {j : Nat} {cur x : String}
    (hx : iterParent groups j cur = some x)
    (hnext : (iterParent groups (j + 1) cur).isSome) :
    x ∈ groups.map (fun g => g.id) := by
  have hone : iterParent groups (j + 1) cur = parentStep groups x := by
    rw [iterParent_add groups j 1, hx, Option.some_bind, iterParent]
    cases parentStep groups x with
    | none => rfl
    | some y => rw [Option.some_bind, iterParent]
  rw [hone] at hnext
  rcases Option.isSome_iff_exists.mp hnext with ⟨y, hy⟩
  rw [parentStep] at hy
  cases hlx : lookupGroup groups x with
  | none => rw [hlx] at hy; cases hy
  | some g =>
    rcases lookupGroup_mem hlx with ⟨hgmem, hgid⟩
    exact List.mem_map.mpr ⟨g, hgmem, hgid⟩

/-- A bounded (hence decidable on concrete forests) sufficient condition
for cycle-freedom: no group returns to itself within `groups.length`
steps.  A longer cycle would repeat an id and contain such a short
cycle. -/
theorem acyclic_of_bounded (groups : List FileGroup)
    (h : ∀ g ∈ groups, ∀ n, n ≤ groups.length → 0 < n →
      iterParent groups n g.id ≠ some g.id) : Acyclic groups := by
  intro i n hn hcyc
  have hid : ∃ g ∈ groups, g.id = i := by
    rcases Nat.exists_eq_succ_of_ne_zero (Nat.pos_iff_ne_zero.mp hn) with ⟨m, rfl⟩
    rw [iterParent] at hcyc
    cases hs : parentStep groups i with
    | none => rw [hs] at hcyc; cases hcyc
    | some p =>
      rw [parentStep] at hs
      cases hl : lookupGroup groups i with
      | none => rw [hl] at hs; cases hs
      | some g =>
        rcases lookupGroup_mem hl with ⟨hmem, hgid⟩
        exact ⟨g, hmem, hgid⟩
  rcases hid with ⟨g, hgmem, rfl⟩
  by_cases hle : n ≤ groups.length
  · exact h g hgmem n hle hn hcyc
  · push_neg at hle
    classical
    set f : Nat → String := fun j => (iterParent groups j g.id).getD "" with hf
    have hdef : ∀ j, j ≤ groups.length + 1 → (iterParent groups j g.id).isSome := by
      intro j hj
      exact iter_isSome_of_le hcyc j (by omega)
    have hmaps : ∀ j ∈ Finset.range (groups.length + 1),
        f j ∈ (groups.map (fun g => g.id)).toFinset := by
      intro j hj
      rw [Finset.mem_range] at hj
      rcases Option.isSome_iff_exists.mp (hdef j (by omega)) with ⟨x, hx⟩
      rw [List.mem_toFinset]
      have hfx : f j = x := by rw [hf]; simp [hx]
      rw [hfx]
      exact iter_val_mem_ids hx (hdef (j + 1) (by omega))
    have hcard : (groups.map (fun g => g.id)).toFinset.card <
        (Finset.range (groups.length + 1)).card := by
      rw [Finset.card_range]
      calc (groups.map (fun g => g.id)).toFinset.card
          ≤ (groups.map (fun g => g.id)).length := List.toFinset_card_le _
        _ = groups.length := List.length_map _ _
        _ < groups.length + 1 := Nat.lt_succ_self _
    rcases Finset.exists_ne_map_eq_of_card_lt_of_maps_to hcard hmaps with
      ⟨j1, hj1, j2, hj2, hne, hfeq⟩
    rw [Finset.mem_range] at hj1 hj2
    -- normalize to j1 < j2
    rcases Nat.lt_or_ge j1 j2 with hlt | hge
    ·
      rcases Option.isSome_iff_exists.mp (hdef j1 (by omega)) with ⟨x1, hx1⟩
      rcases Option.isSome_iff_exists.mp (hdef j2 (by omega)) with ⟨x2, hx2⟩
      have hx12 : x1 = x2 := by
        have e1 : f j1 = x1 := by rw [hf]; simp [hx1]
        have e2 : f j2 = x2 := by rw [hf]; simp [hx2]
        rw [← e1, ← e2, hfeq]
      have hadd := iterParent_add groups j1 (j2 - j1) g.id
      rw [Nat.add_sub_cancel' (by omega : j1 ≤ j2), hx1, Option.some_bind, hx2] at hadd
      rw [hx12] at hadd
      have hx2mem : x2 ∈ groups.map (fun g => g.id) := by
        have := hmaps j2 (Finset.mem_range.mpr hj2)
        rw [List.mem_toFinset] at this
        have e2 : f j2 = x2 := by rw [hf]; simp [hx2]
        rwa [e2] at this
      rcases List.mem_map.mp hx2mem with ⟨g', hg'mem, hg'id⟩
      exact h g' hg'mem (j2 - j1) (by omega) (by omega) (by rw [hg'id]; exact hadd.symm)
    ·
      have hlt : j2 < j1 := by omega
      rcases Option.isSome_iff_exists.mp (hdef j1 (by omega)) with ⟨x1, hx1⟩
      rcases Option.isSome_iff_exists.mp (hdef j2 (by omega)) with ⟨x2, hx2⟩
      have hx12 : x1 = x2 := by
        have e1 : f j1 = x1 := by rw [hf]; simp [hx1]
        have e2 : f j2 = x2 := by rw [hf]; simp [hx2]
        rw [← e1, ← e2, hfeq]
      have hadd := iterParent_add groups j2 (j1 - j2) g.id
      rw [Nat.add_sub_cancel' (by omega : j2 ≤ j1), hx2, Option.some_bind, hx1] at hadd
      rw [hx12] at hadd
      have hx2mem : x2 ∈ groups.map (fun g => g.id) := by
        have := hmaps j2 (Finset.mem_range.mpr hj2)
        rw [List.mem_toFinset] at this
        have e2 : f j2 = x2 := by rw [hf]; simp [hx2]
        rwa [e2] at this
      rcases List.mem_map.mp hx2mem with ⟨g', hg'mem, hg'id⟩
      exact h g' hg'mem (j1 - j2) (by omega) (by omega) (by rw [hg'id]; exact hadd.symm)

/-! ### Path codec lemmas -/

theorem normalizeSeparators_no_backslash (s : String) :
    ∀ c ∈ (normalizeSeparators s).data, c ≠ '\\' := by
  intro c hc
  have hc' : c ∈ s.data.map (fun c => if c = '\\' then '/' else c) := hc
  rcases List.mem_map.mp hc' with ⟨c₀, _, rfl⟩
  by_cases h : c₀ = '\\'
  · rw [if_pos h]; decide
  · rw [if_neg h]; exact h

/-! ### Rename reconciliation lemmas -/

theorem jsFindIndex_eq_none {p : GroupFile → Bool} {l : List GroupFile}
    (h : ∀ f ∈ l, ¬ p f = true) : jsFindIndex p l = none := by
  induction l with
  | nil => rfl
  | cons f fs ih =>
    rw [jsFindIndex, if_neg (h f (List.mem_cons_self f fs)),
      ih (fun f' hf' => h f' (List.mem_cons_of_mem _ hf')), Option.map_none']

theorem renameInGroup_of_not_mem {oldPath newPath newName : String} {g : FileGroup}
    (h : ∀ f ∈ g.files, f.path ≠ oldPath) :
    renameInGroup oldPath newPath newName g = g := by
  rw [renameInGroup, jsFindIndex_eq_none (fun f hf => by simp [h f hf])]

theorem renameInGroup_isGlobal (oldPath newPath newName : String) (g : FileGroup) :
    (renameInGroup oldPath newPath newName g).isGlobal = g.isGlobal := by
  rw [renameInGroup]
  cases jsFindIndex (fun f => f.path == oldPath) g.files <;> rfl

/-- Patching a member list containing the old path exactly once and the
new path not at all: the first old-path member is overwritten in place by
the bare `{path, name}` record (no `isDirectory`), leaving exactly that
one member at the new path and none at the old. -/
theorem renameFiles_spec (oldPath newPath newName : String) :
    ∀ (l : List GroupFile),
      (l.filter (fun f => f.path == oldPath)).length = 1 →
      (l.filter (fun f => f.path == newPath)).length = 0 →
      ∃ i, jsFindIndex (fun f => f.path == oldPath) l = some i ∧
        (l.set i ⟨newPath, newName, none⟩).filter (fun f => f.path == newPath) =
          [⟨newPath, newName, none⟩] ∧
        ((l.set i ⟨newPath, newName, none⟩).filter
          (fun f => f.path == oldPath)).length = 0 := by
  intro l
  induction l with
  | nil => intro h1 _; simp at h1
  | cons f fs ih =>
    intro h1 h2
    rw [List.filter_cons] at h1 h2
    by_cases hf : f.path = oldPath
    · rw [if_pos (by simp [hf])] at h1
      have hfs1 : (fs.filter (fun f => f.path == oldPath)).length = 0 := by
        simpa using h1
      have hfN : ¬ f.path = newPath := by
        intro hN
        rw [if_pos (by simp [hN])] at h2
        simp at h2
      rw [if_neg (by simp [hfN])] at h2
      have hON : ¬ newPath = oldPath := by
        intro hON
        exact hfN (by rw [hON, hf])
      refine ⟨0, ?_, ?_, ?_⟩
      · rw [jsFindIndex, if_pos (by simp [hf])]
      · rw [List.set_cons_zero, List.filter_cons, if_pos (by simp)]
        rw [List.length_eq_zero.mp h2]
      · rw [List.set_cons_zero, List.filter_cons, if_neg (by simp [hON])]
        exact hfs1
    · rw [if_neg (by simp [hf])] at h1
      have hfN : ¬ f.path = newPath := by
        intro hN
        rw [if_pos (by simp [hN])] at h2
        simp at h2
      rw [if_neg (by simp [hfN])] at h2
      rcases ih h1 h2 with ⟨i, hidx, hN1, hO1⟩
      refine ⟨i + 1, ?_, ?_, ?_⟩
      · rw [jsFindIndex, if_neg (by simp [hf]), hidx, Option.map_some']
      · rw [List.set_cons_succ, List.filter_cons, if_neg (by simp [hfN]), hN1]
      · rw [List.set_cons_succ, List.filter_cons, if_neg (by simp [hf])]
        exact hO1

/-! ### Cleanup sweep lemmas -/

theorem foldl_add_eq (l : List FileGroup) (t : FileGroup → Nat) (n : Nat) :
    l.foldl (fun n g => n + t g) n = n + (l.map t).sum := by
  induction l generalizing n with
  | nil => simp
  | cons g gs ih =>
    rw [List.foldl_cons, ih, List.map_cons, List.sum_cons]
    omega

/-- Every member surviving a cleanup run passes the existence probe. -/
theorem cleanup_result_clean (st : StorageState) (fsExists : String → Bool) :
    ∀ g ∈ getGroups (cleanupMissingFiles st fsExists).1, ∀ f ∈ g.files,
      fsExists f.path = true := by
  simp only [cleanupMissingFiles]
  split
  · intro g hg f hf
    have hgmem := mem_getGroups_saveGroups hg
    rcases List.mem_map.mp hgmem with ⟨g₀, _, rfl⟩
    exact (List.mem_filter.mp hf).2
  · next hno =>
    intro g hg f hf
    have h0 : (getGroups st).foldl
        (fun n g => n + (g.files.length - (g.files.filter (fun f => fsExists f.path)).length))
        0 = 0 := by omega
    rw [foldl_add_eq] at h0
    have hsum : ((getGroups st).map
        (fun g => g.files.length - (g.files.filter (fun f => fsExists f.path)).length)).sum
        = 0 := by omega
    have hterm := List.sum_eq_zero_iff.mp hsum _ (List.mem_map.mpr ⟨g, hg, rfl⟩)
    have hle := List.length_filter_le (fun f => fsExists f.path) g.files
    have hlen : (g.files.filter (fun f => fsExists f.path)).length = g.files.length := by
      omega
    have hself := List.Sublist.eq_of_length (List.filter_sublist _) hlen
    exact List.filter_eq_self.mp hself f hf

/-! ## The specification claims -/

/-- A concrete group record used by claim witnesses and
counterexamples. -/
def mkGroup (id : String) (parentId : Option String) (isGlobal : Bool)
    (files : List GroupFile) : FileGroup :=
  { id := id, name := id, icon := "folder", color := "", files := files,
    order := 0, parentId := parentId, shortDescription := none, details := none,
    createdBy := none, collapsed := false, pinned := false, badgeText := none,
    sortOrder := none, isGlobal := isGlobal }

/-- A project that hides global groups, with one local and one global
group stored. -/
def hideWipeState : StorageState :=
  { localGroups := [mkGroup "L" none false []],
    globalGroups := [mkGroup "G" none true []],
    hideGlobalGroups := true }

/-- Claim C1 (code bug): with `hideGlobalGroups` set and a non-empty
global store, a local-only `updateGroup` persisted through `saveGroups`
deletes the whole global store.  `getGroups` returns only local groups,
so the global partition of the subsequent save is empty, and because the
global store was previously non-empty `saveGroups` overwrites it with
that empty partition.  The spec states the toggle is purely a
presentation filter that never deletes global data. -/
theorem hide_toggle_wipes_global_store :
    (updateGroup hideWipeState "L" { name := some "renamed" }).globalGroups = [] ∧
      hideWipeState.globalGroups ≠ [] := by decide

/-- The global parent group of the C2 scenario. -/
def subgroupParent : FileGroup := mkGroup "P" none true []

/-- A state whose only group is the global parent `P`. -/
def subgroupState : StorageState :=
  { localGroups := [], globalGroups := [subgroupParent], hideGlobalGroups := false }

/-- Claim C2 (code bug): `createSubgroup` under a global parent stores
the child locally.  The command builds the child inheriting only the
parent's color — it carries no `isGlobal` field — so `saveGroups`
partitions the child into the local store while its parent lives in the
global store, breaking the uniform-storeKey invariant the moment the
subgroup is created. -/
theorem createSubgroup_breaks_storeKey_uniformity :
    (lookupGroup (getGroups (createSubgroup subgroupState subgroupParent "C" "child" "user"))
        "C").map (fun g => g.isGlobal) = some false ∧
      (lookupGroup (getGroups (createSubgroup subgroupState subgroupParent "C" "child" "user"))
        "C").bind (fun g => g.parentId) = some "P" ∧
      (lookupGroup (getGroups (createSubgroup subgroupState subgroupParent "C" "child" "user"))
        "P").map (fun g => g.isGlobal) = some true ∧
      (createSubgroup subgroupState subgroupParent "C" "child" "user").localGroups.any
        (fun g => g.id == "C") = true := by decide

/-- Claim C4 counterexample: `/proj2/x` is not within root `/proj`, yet
`toRelativePath` returns `/x` rather than the path unchanged — the
within-root test is a raw string-prefix match. -/
theorem toRelativePath_prefix_collision :
    toRelativePath "/proj2/x" "/proj" = "/x" ∧ "/x" ≠ "/proj2/x" := by decide

/-- Claim C4 (amended): `toRelativePath` returns the input unchanged
exactly when the separator-normalized input does not carry the
separator-normalized root as a *string prefix*; an outside path that
shares a string prefix with the root (such as `/proj2/x` under `/proj`)
is treated as inside and truncated. -/
theorem toRelativePath_outside_root (p root : String)
    (h : ¬ (normalizeSeparators root).data.isPrefixOf (normalizeSeparators p).data = true) :
    toRelativePath p root = p := by
  simp only [toRelativePath]
  rw [if_neg h]

/-- Witness for the amended C4 theorem at a genuinely outside path. -/
theorem toRelativePath_outside_root_witness :
    toRelativePath "/other/x" "/proj" = "/other/x" :=
  toRelativePath_outside_root "/other/x" "/proj" (by decide)

/-- Two groups whose `parentId` links accidentally form a cycle. -/
def cyclicGroups : List FileGroup :=
  [mkGroup "a" (some "b") false [], mkGroup "b" (some "a") false []]

/-- On the two-cycle, the walk runs out of any amount of fuel from
either node. -/
theorem findChildren_cyclic_none :
    ∀ fuel acc, findChildren cyclicGroups fuel "a" acc = none ∧
      findChildren cyclicGroups fuel "b" acc = none := by
  intro fuel
  induction fuel with
  | zero => intro acc; exact ⟨rfl, rfl⟩
  | succ fuel ih =>
    intro acc
    constructor
    · rw [findChildren]
      have hch : childrenOf cyclicGroups "a" = [mkGroup "b" (some "a") false []] := by decide
      rw [hch, List.foldl_cons, List.foldl_nil, Option.some_bind]
      exact (ih _).2
    · rw [findChildren]
      have hch : childrenOf cyclicGroups "b" = [mkGroup "a" (some "b") false []] := by decide
      rw [hch, List.foldl_cons, List.foldl_nil, Option.some_bind]
      exact (ih _).1

/-- Claim C5 (code bug): the `findChildren` recursion of
`getGroupAndChildIds` has no visited-set guard — `ids.add` never blocks
re-entry — so on an input whose `parentId` links form a cycle it
diverges: in the fueled model no amount of fuel completes the walk from
either node of a two-cycle, and the modelled `getGroupAndChildIds`
reports divergence.  The spec requires termination on cyclic inputs via
a defensive visited-set. -/
theorem getGroupAndChildIds_diverges_on_cycle :
    (∀ fuel acc, findChildren cyclicGroups fuel "a" acc = none) ∧
      getGroupAndChildIds "a" cyclicGroups = none :=
  ⟨fun fuel acc => (findChildren_cyclic_none fuel acc).1,
    by rw [getGroupAndChildIds]; exact (findChildren_cyclic_none _ _).1⟩

/-- Claim C7 counterexample: the POSIX path `/proj/a:b` lies under root
`/proj`, but its root-relative part contains a colon, which
`toAbsolutePath` misreads as a drive marker: the round trip returns
`a:b`, not `/proj/a:b`, even after separator normalization. -/
theorem roundtrip_fails_on_colon :
    normalizeSeparators (toAbsolutePath (toRelativePath "/proj/a:b" "/proj") "/proj" '/')
        = "a:b" ∧
      normalizeSeparators "/proj/a:b" = "/proj/a:b" ∧
      ("a:b" : String) ≠ "/proj/a:b" := by decide

/-- Claim C7 (amended): the round-trip law
`toAbsolute (toRelative p root) root = p` holds after separator
normalization for every absolute path under the root whose root-relative
part contains no colon and does not begin with a separator (either of
which `toAbsolutePath` would misread as an already-absolute path), for
either platform separator. -/
theorem toAbsolute_toRelative_roundtrip (p root : String) (rest : List Char) (sep : Char)
    (hsep : sep = '/' ∨ sep = '\\')
    (hsplit : (normalizeSeparators p).data = (normalizeSeparators root).data ++ '/' :: rest)
    (hcolon : ':' ∉ rest) (hhead : rest.head? ≠ some '/') :
    normalizeSeparators (toAbsolutePath (toRelativePath p root) root sep) =
      normalizeSeparators p := by
  have hpre : (normalizeSeparators root).data.isPrefixOf (normalizeSeparators p).data := by
    rw [List.isPrefixOf_iff_prefix, hsplit]
    exact List.prefix_append _ _
  have hrel : toRelativePath p root = ⟨rest⟩ := by
    simp only [toRelativePath]
    rw [if_pos hpre]
    congr 1
    rw [hsplit]
    have hassoc : (normalizeSeparators root).data ++ '/' :: rest =
        ((normalizeSeparators root).data ++ ['/']) ++ rest := by simp
    have hlen : (normalizeSeparators root).data.length + 1 =
        ((normalizeSeparators root).data ++ ['/']).length := by simp
    rw [hassoc, hlen, List.drop_left]
  rw [hrel]
  have hcond : ¬ ((⟨rest⟩ : String).data.contains ':' ||
      (⟨rest⟩ : String).data.head? = some '/' : Bool) = true := by
    have h1 : (rest.contains ':') = false := by simpa using hcolon
    have h2 : decide (rest.head? = some '/') = false := decide_eq_false hhead
    show ¬ (rest.contains ':' || decide (rest.head? = some '/')) = true
    rw [h1, h2]
    decide
  rw [toAbsolutePath, if_neg hcond]
  apply String.ext
  show ((root.data ++ '/' :: rest).map (fun c => if c = '/' then sep else c)).map
      (fun c => if c = '\\' then '/' else c) = (normalizeSeparators p).data
  rw [List.map_map]
  have hcomp : ∀ c : Char,
      ((fun c => if c = '\\' then '/' else c) ∘ (fun c => if c = '/' then sep else c)) c =
        (fun c => if c = '\\' then '/' else c) c := by
    intro c
    rcases hsep with rfl | rfl
    · by_cases hc : c = '/'
      · simp [hc]
      · simp [hc]
    · by_cases hc : c = '/'
      · subst hc; simp
      · by_cases hb : c = '\\' <;> simp [hc, hb]
  rw [List.map_congr_left (fun c _ => hcomp c)]
  rw [List.map_append, List.map_cons]
  have hroot : root.data.map (fun c => if c = '\\' then '/' else c) =
      (normalizeSeparators root).data := rfl
  have hslash : (if ('/' : Char) = '\\' then '/' else '/') = '/' := by decide
  have hrest : rest.map (fun c => if c = '\\' then '/' else c) = rest := by
    have hnb : ∀ c ∈ rest, c ≠ '\\' := by
      intro c hc
      apply normalizeSeparators_no_backslash p
      rw [hsplit]
      exact List.mem_append.mpr (Or.inr (List.mem_cons_of_mem _ hc))
    have : ∀ c ∈ rest, (if c = '\\' then '/' else c) = id c := by
      intro c hc
      rw [if_neg (hnb c hc)]
      rfl
    rw [List.map_congr_left this, List.map_id]
  rw [hroot, hslash, hrest, hsplit]

/-- Witness for the amended C7 theorem: a path under the root
round-trips on a backslash-separator platform. -/
theorem toAbsolute_toRelative_roundtrip_witness :
    normalizeSeparators
        (toAbsolutePath (toRelativePath "/proj/docs/readme.md" "/proj") "/proj" '\\') =
      normalizeSeparators "/proj/docs/readme.md" :=
  toAbsolute_toRelative_roundtrip "/proj/docs/readme.md" "/proj"
    ("docs/readme.md").data '\\' (Or.inr rfl) (by decide) (by decide) (by decide)

/-- A state with a single local group `A`, used to exhibit the silent
self-drop. -/
def selfDropState : StorageState :=
  { localGroups := [mkGroup "A" none false []], globalGroups := [],
    hideGlobalGroups := false }

/-- Claim C3 counterexample: dropping a group onto itself is refused
*silently* — the controller `continue`s without calling
`showWarningMessage` — contradicting the claim that this rejection case
surfaces a user-facing warning (the returned flag records whether the
warning was shown). -/
theorem selfDrop_shows_no_warning :
    applyDrop selfDropState "A" (DropTarget.group "A") = some (selfDropState, false) := by
  decide

/-- Claim C3 (amended): in a visible forest with pairwise-distinct ids
and no cycles, (1) a drop of a group onto itself is refused with no
state change and *no* warning, (2) a drop onto one of its descendants is
refused with no state change and the user-facing warning, and (3) every
forest reachable by any sequence of drop operations remains
cycle-free. -/
theorem drop_rejection_and_cycle_freedom (st : StorageState)
    (hN : NodupIds (getGroups st)) (hacy : Acyclic (getGroups st)) :
    (∀ A, applyDrop st A (DropTarget.group A) = some (st, false)) ∧
      (∀ A B dragged targetGroup,
        lookupGroup (getGroups st) A = some dragged →
        lookupGroup (getGroups st) B = some targetGroup →
        A ≠ B →
        isDescendant (getGroups st) B A = true →
        applyDrop st A (DropTarget.group B) = some (st, true)) ∧
      (∀ ops, ∃ st', applyDrops ops st = some st' ∧ Acyclic (getGroups st')) := by
  refine ⟨?_, ?_, ?_⟩
  · intro A
    simp only [applyDrop]
    cases hA : lookupGroup (getGroups st) A with
    | none => rfl
    | some dragged =>
      dsimp only
      rw [if_pos (by simp)]
  · intro A B dragged targetGroup hA hB hAB hdesc
    simp only [applyDrop]
    rw [hA]
    dsimp only
    rw [hB]
    dsimp only
    have hid1 : dragged.id = A := (lookupGroup_mem hA).2
    have hid2 : targetGroup.id = B := (lookupGroup_mem hB).2
    rw [if_neg (by simp only [hid1, hid2, beq_iff_eq]; exact hAB)]
    rw [if_pos (by rw [hid1, hid2]; exact hdesc)]
  · intro ops
    rcases applyDrops_preserves ops st hN hacy with ⟨st', h1, _, h3⟩
    exact ⟨st', h1, h3⟩

/-- A two-group chain used to exercise the drop theorem. -/
def dropWitnessState : StorageState :=
  { localGroups := [mkGroup "A" none false [], mkGroup "B" (some "A") false []],
    globalGroups := [], hideGlobalGroups := false }

/-- Witness for the amended C3 theorem: on the chain `A ← B`, a
self-drop is silently refused, dropping `A` onto its descendant `B` is
refused with the warning, and a drop sequence completes leaving the
forest cycle-free. -/
theorem drop_rejection_and_cycle_freedom_witness :
    applyDrop dropWitnessState "A" (DropTarget.group "A") = some (dropWitnessState, false) ∧
      applyDrop dropWitnessState "A" (DropTarget.group "B") = some (dropWitnessState, true) ∧
      (∃ st', applyDrops [("B", DropTarget.rootLevel), ("B", DropTarget.group "A")]
        dropWitnessState = some st' ∧ Acyclic (getGroups st')) := by
  have h := drop_rejection_and_cycle_freedom dropWitnessState
    (by unfold NodupIds; decide) (acyclic_of_bounded _ (by decide))
  refine ⟨h.1 "A", ?_, h.2.2 _⟩
  exact h.2.1 "A" "B" (mkGroup "A" none false []) (mkGroup "B" (some "A") false [])
    (by decide) (by decide) (by decide) (by decide)

/-- A project hiding global groups, holding one local group `L` and one
unrelated global group `G`. -/
def deleteHiddenState : StorageState :=
  { localGroups := [mkGroup "L" none false []],
    globalGroups := [mkGroup "G" none true []],
    hideGlobalGroups := true }

/-- Claim C6 counterexample: with global groups hidden, deleting the
local group `L` also clears the unrelated global group `G`, even though
the descendant query on `L` returns only `L` itself — the deletion is
not limited to the computed descendant set. -/
theorem deleteGroup_wipes_hidden_global :
    deleteGroup deleteHiddenState "L" = some
        { localGroups := [], globalGroups := [], hideGlobalGroups := true } ∧
      getGroupAndChildIds "L" (getGroups deleteHiddenState) = some ["L"] := by decide

/-- Claim C6 (amended): on a flag-consistent store with global groups
visible, `deleteGroup X` removes from each store exactly the groups
whose id lies in the set the descendant query on X returned before the
deletion, and that set is exactly X together with its transitive
children; every other group in both stores is unchanged. -/
theorem deleteGroup_removes_exactly_descendants (st : StorageState) (gid : String)
    (ids : List String) (hwf : WellFormed st) (hh : st.hideGlobalGroups = false)
    (hids : getGroupAndChildIds gid (getGroups st) = some ids) :
    deleteGroup st gid = some
        { st with
          localGroups := st.localGroups.filter (fun g => !ids.contains g.id)
          globalGroups := st.globalGroups.filter (fun g => !ids.contains g.id) } ∧
      (∀ a, a ∈ ids ↔ a = gid ∨ Desc (getGroups st) gid a) :=
  ⟨deleteGroup_filters hwf hh hids, getGroupAndChildIds_spec hids⟩

/-- A visible two-store forest: local chain `X ← Y` plus local sibling
`Z` and global `W`. -/
def deleteWitnessState : StorageState :=
  { localGroups := [mkGroup "X" none false [], mkGroup "Y" (some "X") false [],
      mkGroup "Z" none false []],
    globalGroups := [mkGroup "W" none true []],
    hideGlobalGroups := false }

/-- Witness for the amended C6 theorem: deleting `X` removes exactly
`X` and its child `Y`, keeping the sibling `Z` and the global `W`, and
the computed set `[X, Y]` is characterized by descendant
reachability. -/
theorem deleteGroup_removes_exactly_descendants_witness :
    deleteGroup deleteWitnessState "X" = some
        { localGroups := [mkGroup "Z" none false []],
          globalGroups := [mkGroup "W" none true []],
          hideGlobalGroups := false } ∧
      ("Y" ∈ ["X", "Y"] ↔ "Y" = "X" ∨ Desc (getGroups deleteWitnessState) "X" "Y") := by
  have h := deleteGroup_removes_exactly_descendants deleteWitnessState "X" ["X", "Y"]
    (by unfold WellFormed; decide) (by decide) (by decide)
  refine ⟨?_, h.2 "Y"⟩
  rw [h.1]
  decide

/-- A group already holding both `/proj/a.ts` (a directory entry) and
`/proj/b.ts`. -/
def renameState : StorageState :=
  { localGroups := [mkGroup "R" none false
      [⟨"/proj/a.ts", "a.ts", some true⟩, ⟨"/proj/b.ts", "b.ts", some false⟩]],
    globalGroups := [], hideGlobalGroups := false }

/-- Claim C8 counterexample: renaming `/proj/a.ts` onto `/proj/b.ts` in
a group that already contains `/proj/b.ts` leaves *two* members at the
new path (not exactly one), and the patched member's `isDirectory`
(previously `some true`) is dropped rather than carried over — the
handler overwrites the member with a bare `{path, name}` record. -/
theorem rename_duplicates_and_drops_isDirectory :
    (onDidRenameFile renameState "/proj/a.ts" "/proj/b.ts").localGroups.map
        (fun g => g.files) =
      [[⟨"/proj/b.ts", "b.ts", none⟩, ⟨"/proj/b.ts", "b.ts", some false⟩]] := by decide

/-- Claim C8 (amended): on a flag-consistent store with global groups
visible, a rename notification rewrites the visible forest pointwise:
a group without a member at the old path is unchanged, and a group
containing the old path exactly once and the new path not at all ends up
with exactly one member at the new path — named after the new path's
last segment and stored with *no* `isDirectory` (the flag is dropped, to
be re-derived on the next artifact load) — and no member at the old
path. -/
theorem rename_reconciliation (st : StorageState) (oldPath newPath : String)
    (hwf : WellFormed st) (hh : st.hideGlobalGroups = false) :
    (onDidRenameFile st oldPath newPath).localGroups =
        st.localGroups.map (renameInGroup oldPath newPath (lastSegment newPath)) ∧
      (onDidRenameFile st oldPath newPath).globalGroups =
        st.globalGroups.map (renameInGroup oldPath newPath (lastSegment newPath)) ∧
      (∀ g : FileGroup, (∀ f ∈ g.files, f.path ≠ oldPath) →
        renameInGroup oldPath newPath (lastSegment newPath) g = g) ∧
      (∀ g : FileGroup,
        (g.files.filter (fun f => f.path == oldPath)).length = 1 →
        (g.files.filter (fun f => f.path == newPath)).length = 0 →
        (renameInGroup oldPath newPath (lastSegment newPath) g).files.filter
            (fun f => f.path == newPath) =
          [⟨newPath, lastSegment newPath, none⟩] ∧
        ((renameInGroup oldPath newPath (lastSegment newPath) g).files.filter
            (fun f => f.path == oldPath)).length = 0) := by
  have hG := getGroups_of_wf hwf hh
  have hstores : (onDidRenameFile st oldPath newPath).localGroups =
      st.localGroups.map (renameInGroup oldPath newPath (lastSegment newPath)) ∧
      (onDidRenameFile st oldPath newPath).globalGroups =
      st.globalGroups.map (renameInGroup oldPath newPath (lastSegment newPath)) := by
    rw [onDidRenameFile]
    by_cases hchanged : (getGroups st).any (fun g => g.files.any (fun f => f.path == oldPath))
    · rw [if_pos hchanged]
      have hmod : (getGroups st).map (renameInGroup oldPath newPath (lastSegment newPath)) =
          st.globalGroups.map (renameInGroup oldPath newPath (lastSegment newPath)) ++
            st.localGroups.map (renameInGroup oldPath newPath (lastSegment newPath)) := by
        rw [hG, List.map_append]
      have hflagG : ∀ g ∈ st.globalGroups.map
          (renameInGroup oldPath newPath (lastSegment newPath)), g.isGlobal = true := by
        intro g hg
        rcases List.mem_map.mp hg with ⟨g₀, hg₀, rfl⟩
        rw [renameInGroup_isGlobal]
        exact hwf.1 g₀ hg₀
      have hflagL : ∀ g ∈ st.localGroups.map
          (renameInGroup oldPath newPath (lastSegment newPath)), g.isGlobal = false := by
        intro g hg
        rcases List.mem_map.mp hg with ⟨g₀, hg₀, rfl⟩
        rw [renameInGroup_isGlobal]
        exact hwf.2 g₀ hg₀
      constructor
      · rw [saveGroups_localGroups, hmod, (filter_global_partitioned hflagG hflagL).2]
      · rw [saveGroups_globalGroups, hmod, (filter_global_partitioned hflagG hflagL).1]
        have hid : ∀ g ∈ st.globalGroups.map
            (renameInGroup oldPath newPath (lastSegment newPath)),
            normalizeGlobal g = id g := by
          intro g hg
          exact normalizeGlobal_eq_self (hflagG g hg)
        rw [List.map_congr_left hid, List.map_id]
    · rw [if_neg hchanged]
      have hnone : ∀ g ∈ getGroups st,
          renameInGroup oldPath newPath (lastSegment newPath) g = g := by
        intro g hg
        apply renameInGroup_of_not_mem
        intro f hf hpath
        apply hchanged
        rw [List.any_eq_true]
        exact ⟨g, hg, by rw [List.any_eq_true]; exact ⟨f, hf, by simp [hpath]⟩⟩
      constructor
      · have h : ∀ g ∈ st.localGroups,
            renameInGroup oldPath newPath (lastSegment newPath) g = g := by
          intro g hg
          apply hnone
          rw [hG]
          exact List.mem_append.mpr (Or.inr hg)
        rw [List.map_congr_left h, List.map_id']
      · have h : ∀ g ∈ st.globalGroups,
            renameInGroup oldPath newPath (lastSegment newPath) g = g := by
          intro g hg
          apply hnone
          rw [hG]
          exact List.mem_append.mpr (Or.inl hg)
        rw [List.map_congr_left h, List.map_id']
  refine ⟨hstores.1, hstores.2, ?_, ?_⟩
  · intro g hno
    exact renameInGroup_of_not_mem hno
  · intro g h1 h2
    rcases renameFiles_spec oldPath newPath (lastSegment newPath) g.files h1 h2 with
      ⟨i, hidx, hN, hO⟩
    rw [renameInGroup, hidx]
    exact ⟨hN, hO⟩

/-- Witness for the amended C8 theorem: in a one-group forest holding
`/proj/a.ts`, renaming it to `/proj/b.ts` leaves exactly one member at
the new path named `b.ts` with the directory flag dropped. -/
theorem rename_reconciliation_witness :
    (onDidRenameFile
        { localGroups := [mkGroup "R" none false [⟨"/proj/a.ts", "a.ts", some true⟩]],
          globalGroups := [], hideGlobalGroups := false } "/proj/a.ts" "/proj/b.ts").localGroups =
      [mkGroup "R" none false [⟨"/proj/b.ts", "b.ts", none⟩]] := by
  have h := rename_reconciliation
    { localGroups := [mkGroup "R" none false [⟨"/proj/a.ts", "a.ts", some true⟩]],
      globalGroups := [], hideGlobalGroups := false } "/proj/a.ts" "/proj/b.ts"
    (by unfold WellFormed; decide) (by decide)
  rw [h.1]
  decide

/-- Claim C9 (confirmed): adding the same file to a group twice is a
counted no-op.  If the group exists and holds at most one member at the
file's path beforehand, then after the first `addFilesToGroup` the group
holds exactly one member at that path, and the second call returns `0`
added and leaves the state untouched (the model is total, so no
exception is possible). -/
theorem addFiles_duplicate_noop (st : StorageState) (gid : String) (file : GroupFile)
    (g0 : FileGroup) (hg : lookupGroup (getGroups st) gid = some g0)
    (hcount : (g0.files.filter (fun f => f.path == file.path)).length ≤ 1) :
    addFilesToGroup (addFilesToGroup st gid [file]).1 gid [file] =
        ((addFilesToGroup st gid [file]).1, 0) ∧
      ∃ g1, lookupGroup (getGroups (addFilesToGroup st gid [file]).1) gid = some g1 ∧
        (g1.files.filter (fun f => f.path == file.path)).length = 1 := by
  cases hdup : g0.files.any (fun f => f.path == file.path) with
  | true =>
    have h1 : addFilesToGroup st gid [file] = (st, 0) := by
      simp [addFilesToGroup, hg, addFilesStep, hdup]
    refine ⟨?_, g0, ?_, ?_⟩
    · rw [h1]
      exact h1
    · rw [h1]
      exact hg
    · rcases List.any_eq_true.mp hdup with ⟨f, hf, hfp⟩
      have hpos : 0 < (g0.files.filter (fun f => f.path == file.path)).length :=
        List.length_pos_of_mem (List.mem_filter.mpr ⟨hf, hfp⟩)
      omega
  | false =>
    have hflag : ∀ x : FileGroup,
        ({ x with files := g0.files ++ [file] } : FileGroup).isGlobal = x.isGlobal :=
      fun _ => rfl
    have hfid : ∀ x : FileGroup,
        ({ x with files := g0.files ++ [file] } : FileGroup).id = x.id :=
      fun _ => rfl
    have h1 : addFilesToGroup st gid [file] =
        (saveGroups st (modifyFirst (fun x => x.id == gid)
          (fun x => { x with files := g0.files ++ [file] }) (getGroups st)), 1) := by
      simp [addFilesToGroup, hg, addFilesStep, hdup]
    have hget : getGroups (saveGroups st (modifyFirst (fun x => x.id == gid)
        (fun x => { x with files := g0.files ++ [file] }) (getGroups st))) =
        modifyFirst (fun x => x.id == gid)
          (fun x => { x with files := g0.files ++ [file] }) (getGroups st) :=
      getGroups_save_modifyFirst st _ _ hflag
    have hlook : lookupGroup (getGroups (saveGroups st (modifyFirst (fun x => x.id == gid)
        (fun x => { x with files := g0.files ++ [file] }) (getGroups st)))) gid =
        some { g0 with files := g0.files ++ [file] } := by
      rw [hget, lookupGroup_modifyFirst _ hfid gid _ gid, if_pos rfl, hg, Option.map_some']
    have hdup1 : ({ g0 with files := g0.files ++ [file] } : FileGroup).files.any
        (fun f => f.path == file.path) = true :=
      List.any_eq_true.mpr ⟨file, by simp, by simp⟩
    have hnof : g0.files.filter (fun f => f.path == file.path) = [] :=
      List.filter_eq_nil_iff.mpr (fun f hf hp => by
        have hany : g0.files.any (fun f => f.path == file.path) = true :=
          List.any_eq_true.mpr ⟨f, hf, hp⟩
        rw [hdup] at hany
        exact Bool.false_ne_true hany)
    refine ⟨?_, { g0 with files := g0.files ++ [file] }, ?_, ?_⟩
    · rw [h1]
      simp [addFilesToGroup, hlook, addFilesStep, hdup1]
    · rw [h1]
      exact hlook
    · show ((g0.files ++ [file]).filter (fun f => f.path == file.path)).length = 1
      rw [List.filter_append, hnof]
      simp

/-- Witness for the C9 theorem: adding `/proj/a.ts` twice to a one-group
forest keeps a single member at that path and the second call adds
nothing. -/
theorem addFiles_duplicate_noop_witness :
    addFilesToGroup
        (addFilesToGroup
          { localGroups := [mkGroup "R" none false []], globalGroups := [],
            hideGlobalGroups := false } "R" [⟨"/proj/a.ts", "a.ts", none⟩]).1
        "R" [⟨"/proj/a.ts", "a.ts", none⟩] =
      ((addFilesToGroup
          { localGroups := [mkGroup "R" none false []], globalGroups := [],
            hideGlobalGroups := false } "R" [⟨"/proj/a.ts", "a.ts", none⟩]).1, 0) :=
  (addFiles_duplicate_noop
    { localGroups := [mkGroup "R" none false []], globalGroups := [],
      hideGlobalGroups := false } "R" ⟨"/proj/a.ts", "a.ts", none⟩
    (mkGroup "R" none false []) (by decide) (by decide)).1

/-- Claim C10 (confirmed): `cleanupMissingFiles` is idempotent.  Every
member surviving the first sweep passes the existence probe, so the
second sweep with the same probe removes nothing and returns the first
sweep's state with a removal count of zero. -/
theorem cleanupMissingFiles_idempotent (st : StorageState) (fsExists : String → Bool) :
    cleanupMissingFiles (cleanupMissingFiles st fsExists).1 fsExists =
      ((cleanupMissingFiles st fsExists).1, 0) := by
  obtain ⟨st1, hst1⟩ : ∃ s, (cleanupMissingFiles st fsExists).1 = s := ⟨_, rfl⟩
  have hclean := cleanup_result_clean st fsExists
  rw [hst1] at hclean
  have hfix : ∀ g ∈ getGroups st1,
      g.files.filter (fun f => fsExists f.path) = g.files := by
    intro g hg
    exact List.filter_eq_self.mpr (hclean g hg)
  have hcnt : (getGroups st1).foldl
      (fun n g => n + (g.files.length - (g.files.filter (fun f => fsExists f.path)).length))
      0 = 0 := by
    rw [foldl_add_eq]
    have hz : ∀ x ∈ (getGroups st1).map
        (fun g => g.files.length - (g.files.filter (fun f => fsExists f.path)).length),
        x = 0 := by
      intro x hx
      rcases List.mem_map.mp hx with ⟨g, hg, rfl⟩
      rw [hfix g hg]
      omega
    rw [List.sum_eq_zero_iff.mpr hz]
    omega
  rw [hst1]
  simp only [cleanupMissingFiles, hcnt]
  norm_num

end CodeGroup
